import Mathlib

/-!
Verification of the masternode payment consensus subsystem
(`src/masternode-payments.cpp` of the Simplicity repository).

This file gives a shallow embedding of the data model and the operations of
the subsystem, translated from the C++ source, and proves theorems about the
claims of its specification.  External collaborators (the chain database, the
overlay-node registry, the spork oracle, the reward curve) are modelled as
fields of an environment structure `Env`, because the source accesses them
only through opaque interfaces.  A few member functions that live in the
header `masternode-payments.h` (which is not part of the sources given:
`CMasternodeBlockPayees::AddPayee`, `CMasternodeBlockPayees::GetPayee`,
`CMasternodePayments::CanVote`) are modelled from the specification text and
are marked as such in their doc comments.
-/

/-- A funding script: an opaque byte string, compared bytewise
(`CScript` in the source). -/
abbrev Script := List Nat

/-- A transaction input / collateral reference (`CTxIn`): a previous
output reference given by a transaction id hash and an output index. -/
structure CTxIn where
  prevoutHash : Nat
  prevoutN : Nat
deriving DecidableEq, Repr

/-- The default-constructed `CTxIn()` against which the handler compares
`winner.payeeVin` to detect legacy votes. -/
def CTxIn.empty : CTxIn := ⟨0, 0⟩

/-- A transaction output (`CTxOut`): a value and a funding script. -/
structure CTxOut where
  scriptPubKey : Script
  nValue : Int
deriving DecidableEq, Repr

/-- The default-constructed `CTxOut()` used by `vout.resize`: the C++
constructor calls `SetNull()`, which sets `nValue = -1` and clears the
script. -/
def CTxOut.null : CTxOut := ⟨[], -1⟩

/-- A transaction (`CTransaction` / `CMutableTransaction`): its outputs,
plus the bit the validator reads through `HasZerocoinSpendInputs()`
(a property of the inputs, which the subsystem never modifies). -/
structure Transaction where
  vout : List CTxOut
  hasZerocoinSpendInputs : Bool
deriving DecidableEq, Repr

/-- The default transaction (used for out-of-range `vtx` access). -/
def Transaction.null : Transaction := ⟨[], false⟩

/-- Sum of the output values of a list of outputs. -/
def sumValues (v : List CTxOut) : Int :=
  (v.map CTxOut.nValue).sum

/-- One payee record of a block tally (`CMasternodePayee` from the header):
script, tier (`mnlevel`), the nominated payee's collateral reference, and
the vote count. -/
structure CMasternodePayee where
  scriptPubKey : Script
  mnlevel : Nat
  payeeVin : CTxIn
  nVotes : Int
deriving DecidableEq, Repr

/-- The per-height tally (`CMasternodeBlockPayees`): a height and the
ordered sequence of payee records. -/
structure CMasternodeBlockPayees where
  nBlockHeight : Int
  vecPayments : List CMasternodePayee
deriving DecidableEq, Repr

/-- A winner vote (`CMasternodePaymentWinner`): voter collateral reference,
height, nominated payee script, tier and payee collateral reference.  The
signature bytes are not carried; signature checking is modelled through the
environment. -/
structure CMasternodePaymentWinner where
  vinMasternode : CTxIn
  nBlockHeight : Int
  payee : Script
  payeeLevel : Nat
  payeeVin : CTxIn
deriving DecidableEq, Repr

/-- The election store (`CMasternodePayments`): votes indexed by message
hash, tallies indexed by height, and the producer's last-produced-height
counter.  The two C++ `std::map`s are modelled as association lists. -/
structure CMasternodePayments where
  mapMasternodePayeeVotes : List (Nat × CMasternodePaymentWinner)
  mapMasternodeBlocks : List (Int × CMasternodeBlockPayees)
  nLastBlockHeight : Int
deriving DecidableEq, Repr

/-- The empty election store. -/
def CMasternodePayments.empty : CMasternodePayments := ⟨[], [], 0⟩

/-- Modelled from the spec: tiers (`CMasternode::LevelValue::MIN`) are a
small range, in practice 1..3; the constant lives in a header that is not
part of the given sources. -/
def levelMin : Nat := 1

/-- Modelled from the spec: the top tier (`CMasternode::LevelValue::MAX`),
in practice 3; the constant lives in a header that is not part of the given
sources. -/
def levelMax : Nat := 3

/-- Modelled from the spec: `MNPAYMENTS_SIGNATURES_REQUIRED = 6`, the
quorum threshold (declared in the header, stated in the spec). -/
def MNPAYMENTS_SIGNATURES_REQUIRED : Int := 6

/-- Modelled from the spec: `MNPAYMENTS_SIGNATURES_TOTAL = 10`, the rank
threshold for voters (declared in the header, stated in the spec). -/
def MNPAYMENTS_SIGNATURES_TOTAL : Int := 10

/-- Known data of an overlay node, as far as this subsystem reads it from
the registry (`CMasternode`): its tier and its collateral reference. -/
structure MNInfo where
  level : Nat
  vin : CTxIn
  protocolVersion : Int
deriving DecidableEq, Repr

/-- The environment: all external collaborators the source reaches through
global singletons (`chainActive`, `mnodeman`, `sporkManager`, `Params()`,
the reward curve, hashing).  Each field corresponds to one interface
listed in section 6 of the specification. -/
structure Env where
  /-- `IsSporkActive(SPORK_18_NEW_MASTERNODE_TIERS)` -/
  sporkNewTiers : Bool
  /-- `IsSporkActive(SPORK_8_MASTERNODE_PAYMENT_ENFORCEMENT)` -/
  sporkMNEnforcement : Bool
  /-- `IsSporkActive(SPORK_13_ENABLE_SUPERBLOCKS)` -/
  sporkSuperblocks : Bool
  /-- `GetSporkValue(SPORK_17_TREASURY_PAYMENT_ENFORCEMENT)` -/
  spork17Value : Int
  /-- `mnodeman.stable_size()` -/
  stableSize : Nat
  /-- `mnodeman.size()` -/
  mnSize : Nat
  /-- `Params().MasternodeCountDrift()` -/
  countDrift : Nat
  /-- `GetMasternodePayment(height, blockValue, fProofOfStake, mnlevel, driftCount, zcSpend)`:
  the external reward-curve function. -/
  getMasternodePayment : Int → Int → Bool → Nat → Nat → Bool → Int
  /-- `GetBlockHash(hash, height)`: the chain oracle, `none` when the height
  is not in the active chain. -/
  blockHashAt : Int → Option Nat
  /-- `CMasternodePaymentWinner::GetHash()`: the content hash of a vote. -/
  hashOfWinner : CMasternodePaymentWinner → Nat
  /-- Script of `mnodeman.GetCurrentMasterNode(mnlevel, 1)`, the builder's
  fallback payee per tier (`none` when no node is found). -/
  fallbackPayee : Nat → Option Script
  /-- `CTxOut::IsZerocoinMint()`, a predicate of the output script. -/
  zcMint : Script → Bool
  /-- `chainActive.Tip()`: height and hash, `none` when there is no tip
  (or, in the handler and prune paths, when `TRY_LOCK(cs_main)` fails). -/
  tip : Option (Int × Nat)
  /-- `mapBlockIndex` lookup: height of the block with a given hash. -/
  blockIndexHeight : Nat → Option Int
  /-- `IsTreasuryBlock(height)` -/
  isTreasuryBlock : Int → Bool
  /-- `Params().GetTreasuryRewardScriptAtHeight(height)`: the configured
  treasury payees with their percentages. -/
  treasuryPayees : List (Script × Int)
  /-- `GetTreasuryAward(height)` -/
  getTreasuryAward : Int → Int
  /-- `Params().GetBudgetCycleBlocks()` -/
  budgetCycleBlocks : Int
  /-- `masternodeSync.IsSynced()` -/
  synced : Bool
  /-- `masternodeSync.IsBlockchainSynced()` -/
  blockchainSynced : Bool
  /-- `budget.IsBudgetPaymentBlock(height)` -/
  isBudgetPaymentBlock : Int → Bool
  /-- `mnodeman.CountEnabled(level)` -/
  countEnabled : Nat → Nat
  /-- `fLiteMode` -/
  liteMode : Bool
  /-- `ActiveProtocol()` -/
  activeProtocol : Int
  /-- `mnodeman.Find(vin)`: registry lookup by collateral reference. -/
  findMNByVin : CTxIn → Option MNInfo
  /-- `mnodeman.Find(payee script)`: registry lookup by script. -/
  findMNByScript : Script → Option MNInfo
  /-- `mnodeman.GetMasternodeRank(vin, refHeight, ActiveProtocol())`;
  `-1` when unknown. -/
  rankOf : CTxIn → Int → Int
  /-- `CMasternodePaymentWinner::SignatureValid()`: the cryptographic
  check of a vote against the voter's registered key. -/
  sigValid : CMasternodePaymentWinner → Bool
  /-- Whether `TRY_LOCK(cs_main)` succeeds inside the misbehavior
  bookkeeping of the signature-failure branch. -/
  lockMainForMisbehaving : Bool
  /-- `fMasterNode` -/
  fMasterNode : Bool
  /-- `activeMasternode.vin`: this operator's collateral reference. -/
  activeVin : CTxIn
  /-- Whether `obfuScationSigner.SetKey(strMasterNodePrivKey, ...)`
  succeeds. -/
  keySetOk : Bool
  /-- `mnodeman.GetNextMasternodeInQueueForPayment(height, level, true)`:
  collateral script and reference of the elected node, if any. -/
  nextInQueue : Int → Nat → Option (Script × CTxIn)
  /-- Whether `CMasternodePaymentWinner::Sign` succeeds for a vote. -/
  signOk : CMasternodePaymentWinner → Bool

/-- Key lookup in an association list, modelling `std::map::find`,
`std::map::count` and the read side of `operator[]`. -/
def assocFind {α β : Type} [DecidableEq α] (a : α) :
    List (α × β) → Option β
  | [] => none
  | (k, b) :: rest => if k = a then some b else assocFind a rest

/-- Lookup in `mapMasternodePayeeVotes` (`std::map::count` / `operator[]`). -/
def votesLookup (st : CMasternodePayments) (h : Nat) :
    Option CMasternodePaymentWinner :=
  assocFind h st.mapMasternodePayeeVotes

/-- Lookup in `mapMasternodeBlocks` (`std::map::count` / `operator[]`). -/
def blocksLookup (st : CMasternodePayments) (h : Int) :
    Option CMasternodeBlockPayees :=
  assocFind h st.mapMasternodeBlocks

/-- `CMasternodePayments::GetOldestBlock`: minimum key of
`mapMasternodeBlocks`, starting from `std::numeric_limits<int>::max()`. -/
def CMasternodePayments.GetOldestBlock (st : CMasternodePayments) : Int :=
  st.mapMasternodeBlocks.foldl
    (fun acc p => if p.1 < acc then p.1 else acc) 2147483647

/-- `CMasternodePayments::GetNewestBlock`: maximum key of
`mapMasternodeBlocks`, starting from `0`. -/
def CMasternodePayments.GetNewestBlock (st : CMasternodePayments) : Int :=
  st.mapMasternodeBlocks.foldl
    (fun acc p => if p.1 > acc then p.1 else acc) 0

/-- C10: on a store whose tallies-by-height table is empty,
`GetOldestBlock` returns `std::numeric_limits<int>::max() = 2^31 - 1` and
`GetNewestBlock` returns `0`; both are plain sentinel integers, not an
absent/option result. -/
theorem getOldestNewestBlock_empty_sentinels (st : CMasternodePayments)
    (hempty : st.mapMasternodeBlocks = []) :
    st.GetOldestBlock = 2 ^ 31 - 1 ∧ st.GetNewestBlock = 0 := by
  unfold CMasternodePayments.GetOldestBlock CMasternodePayments.GetNewestBlock
  rw [hempty]
  constructor <;> rfl

/-- Witness for C10: the sentinels on the concrete empty store. -/
theorem getOldestNewestBlock_empty_sentinels_witness :
    CMasternodePayments.GetOldestBlock CMasternodePayments.empty = 2 ^ 31 - 1 ∧
    CMasternodePayments.GetNewestBlock CMasternodePayments.empty = 0 :=
  getOldestNewestBlock_empty_sentinels CMasternodePayments.empty rfl

/-- The drift count of `CMasternodeBlockPayees::IsTransactionValid`: the
stable overlay size when `SPORK_8` is active, otherwise the raw size, plus
the configured count drift. -/
def nMasternodeDriftCount (e : Env) : Nat :=
  if e.sporkMNEnforcement then e.stableSize + e.countDrift
  else e.mnSize + e.countDrift

/-- The `continue` filter of both loops of `IsTransactionValid`: a payee is
retained (qualified) when it has at least `MNPAYMENTS_SIGNATURES_REQUIRED`
votes, and, when the `NEW_TIERS` spork is off, its tier is the top tier. -/
def payeeQualified (e : Env) (p : CMasternodePayee) : Bool :=
  !(decide (p.nVotes < MNPAYMENTS_SIGNATURES_REQUIRED) ||
    (!e.sporkNewTiers && p.mnlevel != levelMax))

/-- `requiredMasternodePayment` for one payee tier: the reward curve at the
tally height with the drift count. -/
def requiredPaymentAt (e : Env) (h bv : Int) (pos : Bool) (lvl : Nat)
    (zc : Bool) : Int :=
  e.getMasternodePayment h bv pos lvl (nMasternodeDriftCount e) zc

/-- The `std::find_if` over `txNew.vout`: some output pays the payee's
script at least the required amount. -/
def payeeHasMatchingOutput (e : Env) (tx : Transaction) (h bv : Int)
    (pos : Bool) (p : CMasternodePayee) : Bool :=
  tx.vout.any (fun out =>
    p.scriptPubKey == out.scriptPubKey &&
    decide (requiredPaymentAt e h bv pos p.mnlevel tx.hasZerocoinSpendInputs
      ≤ out.nValue))

/-- The key set of `max_signatures` after the first loop of
`IsTransactionValid`: the tiers of the qualified payees.  (The mapped
values, the largest vote counts, are never read afterwards.) -/
def qualifiedTierSet (e : Env) (ps : List CMasternodePayee) : Finset Nat :=
  ((ps.filter (payeeQualified e)).map CMasternodePayee.mnlevel).toFinset

/-- The second loop of `CMasternodeBlockPayees::IsTransactionValid`:
walk `vecPayments`; for a qualified payee with a matching output erase its
tier from `max_signatures` and return `true` once the map is empty; return
`false` when the list ends. -/
def txValidLoop (e : Env) (tx : Transaction) (h bv : Int) (pos : Bool) :
    List CMasternodePayee → Finset Nat → Bool
  | [], _ => false
  | p :: rest, sigs =>
    if payeeQualified e p then
      if payeeHasMatchingOutput e tx h bv pos p then
        let sigs' := sigs.erase p.mnlevel
        if sigs' = ∅ then true
        else txValidLoop e tx h bv pos rest sigs'
      else txValidLoop e tx h bv pos rest sigs
    else txValidLoop e tx h bv pos rest sigs

/-- `CMasternodeBlockPayees::IsTransactionValid`: accept when no payee has
quorum, otherwise run the matching loop. -/
def CMasternodeBlockPayees.IsTransactionValid (e : Env)
    (bp : CMasternodeBlockPayees) (tx : Transaction) (bv : Int)
    (pos : Bool) : Bool :=
  let sigs := qualifiedTierSet e bp.vecPayments
  if sigs = ∅ then true
  else txValidLoop e tx bp.nBlockHeight bv pos bp.vecPayments sigs

/-- `CMasternodePayments::IsTransactionValid`: delegate to the stored tally
at the height, accept when there is none. -/
def CMasternodePayments.IsTransactionValid (e : Env)
    (st : CMasternodePayments) (tx : Transaction) (h : Int) (bv : Int)
    (pos : Bool) : Bool :=
  match blocksLookup st h with
  | some bp => bp.IsTransactionValid e tx bv pos
  | none => true

/-- A tier is satisfied by the transaction when some qualified record of
that tier has a matching output (same script, value at least the required
reward-curve amount computed with the drift count). -/
def tierSatisfied (e : Env) (bp : CMasternodeBlockPayees) (tx : Transaction)
    (bv : Int) (pos : Bool) (t : Nat) : Prop :=
  ∃ p ∈ bp.vecPayments, payeeQualified e p = true ∧ p.mnlevel = t ∧
    payeeHasMatchingOutput e tx bp.nBlockHeight bv pos p = true

theorem mem_qualifiedTierSet (e : Env) (ps : List CMasternodePayee)
    (t : Nat) :
    t ∈ qualifiedTierSet e ps ↔
      ∃ p ∈ ps, payeeQualified e p = true ∧ p.mnlevel = t := by
  simp only [qualifiedTierSet, List.mem_toFinset, List.mem_map,
    List.mem_filter]
  constructor
  · rintro ⟨p, ⟨hp, hq⟩, rfl⟩
    exact ⟨p, hp, hq, rfl⟩
  · rintro ⟨p, hp, hq, rfl⟩
    exact ⟨p, ⟨hp, hq⟩, rfl⟩

theorem txValidLoop_iff (e : Env) (tx : Transaction) (h bv : Int)
    (pos : Bool) (ps : List CMasternodePayee) (sigs : Finset Nat)
    (hne : sigs ≠ ∅) :
    txValidLoop e tx h bv pos ps sigs = true ↔
      ∀ t ∈ sigs, ∃ p ∈ ps, payeeQualified e p = true ∧ p.mnlevel = t ∧
        payeeHasMatchingOutput e tx h bv pos p = true := by
  induction ps generalizing sigs with
  | nil =>
    simp only [txValidLoop, List.not_mem_nil]
    constructor
    · intro hfalse; cases hfalse
    · intro hall
      obtain ⟨t, ht⟩ := Finset.nonempty_iff_ne_empty.mpr hne
      obtain ⟨p, hp, _⟩ := hall t ht
      cases hp
  | cons p rest ih =>
    by_cases hq : payeeQualified e p = true
    · by_cases hm : payeeHasMatchingOutput e tx h bv pos p = true
      · by_cases hemp : sigs.erase p.mnlevel = ∅
        · simp only [txValidLoop, hq, hm, if_true, hemp]
          simp only [if_true, true_iff]
          intro t ht
          rcases (Finset.erase_eq_empty_iff _ _).mp hemp with rfl | hsing
          · cases ht
          · refine ⟨p, List.mem_cons_self p rest, hq, ?_, hm⟩
            rw [hsing] at ht
            exact (Finset.mem_singleton.mp ht).symm
        · simp only [txValidLoop, hq, hm, if_true, hemp, if_false]
          rw [ih _ hemp]
          constructor
          · intro hall t ht
            by_cases hteq : t = p.mnlevel
            · exact ⟨p, List.mem_cons_self p rest, hq, hteq.symm, hm⟩
            · obtain ⟨p', hp', hrest⟩ :=
                hall t (Finset.mem_erase.mpr ⟨hteq, ht⟩)
              exact ⟨p', List.mem_cons_of_mem p hp', hrest⟩
          · intro hall t ht
            have htsigs : t ∈ sigs := Finset.mem_of_mem_erase ht
            have htne : t ≠ p.mnlevel := (Finset.mem_erase.mp ht).1
            obtain ⟨p', hp', hq', hlvl', hm'⟩ := hall t htsigs
            rcases List.mem_cons.mp hp' with rfl | hp'rest
            · exact absurd hlvl'.symm htne
            · exact ⟨p', hp'rest, hq', hlvl', hm'⟩
      · have hmfalse : payeeHasMatchingOutput e tx h bv pos p = false :=
          Bool.not_eq_true _ |>.mp hm
        simp only [txValidLoop, hq, hmfalse, if_true, Bool.false_eq_true,
          if_false]
        rw [ih _ hne]
        constructor
        · intro hall t ht
          obtain ⟨p', hp', hrest⟩ := hall t ht
          exact ⟨p', List.mem_cons_of_mem p hp', hrest⟩
        · intro hall t ht
          obtain ⟨p', hp', hq', hlvl', hm'⟩ := hall t ht
          rcases List.mem_cons.mp hp' with rfl | hp'rest
          · exact absurd hm' hm
          · exact ⟨p', hp'rest, hq', hlvl', hm'⟩
    · simp only [txValidLoop,
        show payeeQualified e p = false from Bool.not_eq_true _ |>.mp hq,
        Bool.false_eq_true, if_false]
      rw [ih _ hne]
      constructor
      · intro hall t ht
        obtain ⟨p', hp', hrest⟩ := hall t ht
        exact ⟨p', List.mem_cons_of_mem p hp', hrest⟩
      · intro hall t ht
        obtain ⟨p', hp', hq', hlvl', hm'⟩ := hall t ht
        rcases List.mem_cons.mp hp' with rfl | hp'rest
        · exact absurd hq' hq
        · exact ⟨p', hp'rest, hq', hlvl', hm'⟩

theorem blockPayees_isTransactionValid_iff (e : Env)
    (bp : CMasternodeBlockPayees) (tx : Transaction) (bv : Int)
    (pos : Bool) :
    bp.IsTransactionValid e tx bv pos = true ↔
      ((∀ p ∈ bp.vecPayments, payeeQualified e p = false) ∨
       ∀ t, (∃ p ∈ bp.vecPayments, payeeQualified e p = true ∧
          p.mnlevel = t) → tierSatisfied e bp tx bv pos t) := by
  unfold CMasternodeBlockPayees.IsTransactionValid
  by_cases hemp : qualifiedTierSet e bp.vecPayments = ∅
  · simp only [hemp, if_true, true_iff]
    left
    intro p hp
    by_contra hq
    have hq' : payeeQualified e p = true := by
      cases hv : payeeQualified e p
      · exact absurd hv hq
      · rfl
    have : p.mnlevel ∈ qualifiedTierSet e bp.vecPayments :=
      (mem_qualifiedTierSet e bp.vecPayments p.mnlevel).mpr ⟨p, hp, hq', rfl⟩
    rw [hemp] at this
    cases this
  · simp only [hemp, if_false]
    rw [txValidLoop_iff e tx bp.nBlockHeight bv pos bp.vecPayments _ hemp]
    constructor
    · intro hall
      right
      intro t ht
      exact hall t ((mem_qualifiedTierSet e bp.vecPayments t).mpr ht)
    · rintro (hnone | hall)
      · intro t ht
        obtain ⟨p, hp, hq, _⟩ := (mem_qualifiedTierSet e bp.vecPayments t).mp ht
        rw [hnone p hp] at hq
        cases hq
      · intro t ht
        exact hall t ((mem_qualifiedTierSet e bp.vecPayments t).mp ht)

/-- C1: for a stored tally, `CMasternodeBlockPayees::IsTransactionValid`
returns `true` exactly when either no payee record is qualified (votes at
least 6, restricted to the top tier when the NEW_TIERS spork is off), or
every tier having a qualified record is satisfied by some output of the
transaction paying a qualified record's script at least the reward-curve
amount computed with the drift count; for a height with no stored tally,
`CMasternodePayments::IsTransactionValid` returns `true`. -/
theorem isTransactionValid_iff_tiers_satisfied (e : Env)
    (st : CMasternodePayments) (tx : Transaction) (h bv : Int)
    (pos : Bool) :
    CMasternodePayments.IsTransactionValid e st tx h bv pos = true ↔
      ∀ bp ∈ blocksLookup st h,
        ((∀ p ∈ bp.vecPayments, payeeQualified e p = false) ∨
         ∀ t, (∃ p ∈ bp.vecPayments, payeeQualified e p = true ∧
            p.mnlevel = t) → tierSatisfied e bp tx bv pos t) := by
  unfold CMasternodePayments.IsTransactionValid
  cases hlk : blocksLookup st h with
  | none => simp
  | some bp =>
    simp only [Option.mem_def, Option.some.injEq]
    constructor
    · intro hv bp' hbp'
      subst hbp'
      exact (blockPayees_isTransactionValid_iff e bp tx bv pos).mp hv
    · intro hall
      exact (blockPayees_isTransactionValid_iff e bp tx bv pos).mpr
        (hall bp rfl)

/-- Modelled from the spec: the locate-or-create step of
`CMasternodeBlockPayees::AddPayee` (declared only in the header, which is
not among the given sources).  Per the spec, admission locates the payee
record with the same (script, tier) and increments its `votes`; when none
exists a new record is created with the given initial count. -/
def addPayeeList (lvl : Nat) (s : Script) (vin : CTxIn) (inc : Int) :
    List CMasternodePayee → List CMasternodePayee
  | [] => [⟨s, lvl, vin, inc⟩]
  | p :: rest =>
    if p.scriptPubKey = s ∧ p.mnlevel = lvl then
      { p with nVotes := p.nVotes + inc } :: rest
    else p :: addPayeeList lvl s vin inc rest

/-- Modelled from the spec: `CMasternodeBlockPayees::AddPayee` applied to
the tally's payment vector. -/
def CMasternodeBlockPayees.AddPayee (bp : CMasternodeBlockPayees)
    (lvl : Nat) (s : Script) (vin : CTxIn) (inc : Int) :
    CMasternodeBlockPayees :=
  { bp with vecPayments := addPayeeList lvl s vin inc bp.vecPayments }

/-- First payee record with the given (script, tier), if any. -/
def findPayeeRecord (s : Script) (lvl : Nat) :
    List CMasternodePayee → Option CMasternodePayee
  | [] => none
  | p :: rest =>
    if p.scriptPubKey = s ∧ p.mnlevel = lvl then some p
    else findPayeeRecord s lvl rest

/-- Vote count of the first payee record with the given (script, tier), if
any. -/
def findPayeeVotes (bp : CMasternodeBlockPayees) (s : Script) (lvl : Nat) :
    Option Int :=
  (findPayeeRecord s lvl bp.vecPayments).map CMasternodePayee.nVotes

/-- The `mapMasternodeBlocks[h] = CMasternodeBlockPayees(h)` insertion of
`AddWinningMasternode` when the key is absent. -/
def blocksSetDefault (bs : List (Int × CMasternodeBlockPayees)) (h : Int) :
    List (Int × CMasternodeBlockPayees) :=
  if (assocFind h bs).isSome then bs else bs ++ [(h, ⟨h, []⟩)]

/-- Update of the tally stored at a key of `mapMasternodeBlocks`. -/
def blocksModify (bs : List (Int × CMasternodeBlockPayees)) (h : Int)
    (f : CMasternodeBlockPayees → CMasternodeBlockPayees) :
    List (Int × CMasternodeBlockPayees) :=
  bs.map fun kv => if kv.1 = h then (kv.1, f kv.2) else kv

/-- `CMasternodePayments::AddWinningMasternode`: fail when the block hash
at `height - 100` is unknown or the vote hash is already stored; otherwise
insert the vote, create the tally for the height when absent, and add the
payee with one vote. -/
def CMasternodePayments.AddWinningMasternode (e : Env)
    (st : CMasternodePayments) (w : CMasternodePaymentWinner) :
    Bool × CMasternodePayments :=
  if (e.blockHashAt (w.nBlockHeight - 100)).isNone then (false, st)
  else if (votesLookup st (e.hashOfWinner w)).isSome then (false, st)
  else
    (true,
      { st with
        mapMasternodePayeeVotes :=
          (e.hashOfWinner w, w) :: st.mapMasternodePayeeVotes,
        mapMasternodeBlocks :=
          blocksModify (blocksSetDefault st.mapMasternodeBlocks
            w.nBlockHeight) w.nBlockHeight
            (fun bp => bp.AddPayee w.payeeLevel w.payee w.payeeVin 1) })

theorem findPayeeRecord_addPayeeList_same (lvl : Nat) (s : Script)
    (vin : CTxIn) (inc : Int) (ps : List CMasternodePayee) :
    (findPayeeRecord s lvl (addPayeeList lvl s vin inc ps)).map
      CMasternodePayee.nVotes =
    some (((findPayeeRecord s lvl ps).map
      CMasternodePayee.nVotes).getD 0 + inc) := by
  induction ps with
  | nil =>
    simp [addPayeeList, findPayeeRecord]
  | cons p rest ih =>
    by_cases hmatch : p.scriptPubKey = s ∧ p.mnlevel = lvl
    · rw [show addPayeeList lvl s vin inc (p :: rest) =
        { p with nVotes := p.nVotes + inc } :: rest from by
          rw [addPayeeList, if_pos hmatch]]
      rw [findPayeeRecord, if_pos hmatch, findPayeeRecord, if_pos hmatch]
      simp
    · rw [show addPayeeList lvl s vin inc (p :: rest) =
        p :: addPayeeList lvl s vin inc rest from by
          rw [addPayeeList, if_neg hmatch]]
      rw [findPayeeRecord, if_neg hmatch, findPayeeRecord, if_neg hmatch]
      exact ih

theorem findPayeeRecord_addPayeeList_other (lvl : Nat) (s : Script)
    (vin : CTxIn) (inc : Int) (ps : List CMasternodePayee) (s' : Script)
    (lvl' : Nat) (hdiff : ¬(s' = s ∧ lvl' = lvl)) :
    findPayeeRecord s' lvl' (addPayeeList lvl s vin inc ps) =
    findPayeeRecord s' lvl' ps := by
  induction ps with
  | nil =>
    have hnew : ¬((s : Script) = s' ∧ lvl = lvl') := by
      intro hc
      exact hdiff ⟨hc.1.symm, hc.2.symm⟩
    simp only [addPayeeList, findPayeeRecord]
    rw [if_neg hnew]
  | cons p rest ih =>
    by_cases hmatch : p.scriptPubKey = s ∧ p.mnlevel = lvl
    · have hother : ¬(p.scriptPubKey = s' ∧ p.mnlevel = lvl') := by
        intro hc
        exact hdiff ⟨hc.1.symm.trans hmatch.1, hc.2.symm.trans hmatch.2⟩
      rw [show addPayeeList lvl s vin inc (p :: rest) =
        { p with nVotes := p.nVotes + inc } :: rest from by
          rw [addPayeeList, if_pos hmatch]]
      rw [findPayeeRecord, if_neg hother, findPayeeRecord, if_neg hother]
    · rw [show addPayeeList lvl s vin inc (p :: rest) =
        p :: addPayeeList lvl s vin inc rest from by
          rw [addPayeeList, if_neg hmatch]]
      rw [findPayeeRecord, findPayeeRecord]
      by_cases hp : p.scriptPubKey = s' ∧ p.mnlevel = lvl'
      · rw [if_pos hp, if_pos hp]
      · rw [if_neg hp, if_neg hp]
        exact ih

theorem assocFind_blocksModify_same (bs : List (Int × CMasternodeBlockPayees))
    (h : Int) (f : CMasternodeBlockPayees → CMasternodeBlockPayees) :
    assocFind h (blocksModify bs h f) = (assocFind h bs).map f := by
  induction bs with
  | nil => simp [blocksModify, assocFind]
  | cons kv rest ih =>
    obtain ⟨k, v⟩ := kv
    by_cases hk : k = h
    · subst hk
      simp only [blocksModify, List.map_cons, if_true]
      rw [assocFind, if_pos rfl, assocFind, if_pos rfl]
      simp
    · simp only [blocksModify, List.map_cons] at ih ⊢
      rw [show (if (k, v).1 = h then ((k, v).1, f (k, v).2) else (k, v))
        = (k, v) from by rw [if_neg hk]]
      rw [assocFind, if_neg hk, assocFind, if_neg hk]
      exact ih

theorem assocFind_blocksModify_other
    (bs : List (Int × CMasternodeBlockPayees)) (h : Int)
    (f : CMasternodeBlockPayees → CMasternodeBlockPayees) (h' : Int)
    (hne : h' ≠ h) :
    assocFind h' (blocksModify bs h f) = assocFind h' bs := by
  induction bs with
  | nil => simp [blocksModify, assocFind]
  | cons kv rest ih =>
    obtain ⟨k, v⟩ := kv
    simp only [blocksModify, List.map_cons] at ih ⊢
    by_cases hk : k = h
    · subst hk
      rw [show (if (k, v).1 = k then ((k, v).1, f (k, v).2) else (k, v))
        = (k, f v) from by simp]
      have hne' : ¬(k = h') := fun hc => hne (hc.symm)
      rw [assocFind, if_neg hne', assocFind, if_neg hne']
      exact ih
    · rw [show (if (k, v).1 = h then ((k, v).1, f (k, v).2) else (k, v))
        = (k, v) from by rw [if_neg hk]]
      by_cases hk' : k = h'
      · rw [assocFind, if_pos hk', assocFind, if_pos hk']
      · rw [assocFind, if_neg hk', assocFind, if_neg hk']
        exact ih

theorem assocFind_append_single (bs : List (Int × CMasternodeBlockPayees))
    (h : Int) (d : CMasternodeBlockPayees)
    (hnone : assocFind h bs = none) :
    assocFind h (bs ++ [(h, d)]) = some d := by
  induction bs with
  | nil => simp [assocFind]
  | cons kv rest ih =>
    obtain ⟨k, v⟩ := kv
    rw [assocFind] at hnone
    by_cases hk : k = h
    · rw [if_pos hk] at hnone
      cases hnone
    · rw [if_neg hk] at hnone
      rw [List.cons_append, assocFind, if_neg hk]
      exact ih hnone

theorem assocFind_append_single_other
    (bs : List (Int × CMasternodeBlockPayees)) (h h' : Int)
    (d : CMasternodeBlockPayees) (hne : h' ≠ h) :
    assocFind h' (bs ++ [(h, d)]) = assocFind h' bs := by
  induction bs with
  | nil =>
    have hne' : ¬(h = h') := fun hc => hne hc.symm
    simp only [List.nil_append, assocFind]
    rw [if_neg hne']
  | cons kv rest ih =>
    obtain ⟨k, v⟩ := kv
    rw [List.cons_append, assocFind, assocFind]
    by_cases hk : k = h'
    · rw [if_pos hk, if_pos hk]
    · rw [if_neg hk, if_neg hk]
      exact ih

theorem assocFind_blocksSetDefault_same
    (bs : List (Int × CMasternodeBlockPayees)) (h : Int) :
    assocFind h (blocksSetDefault bs h) =
      some ((assocFind h bs).getD ⟨h, []⟩) := by
  unfold blocksSetDefault
  cases hlk : assocFind h bs with
  | some bp => simp [hlk]
  | none =>
    simp only [hlk, Option.isSome_none, Bool.false_eq_true, if_false,
      Option.getD_none]
    exact assocFind_append_single bs h _ hlk

theorem assocFind_blocksSetDefault_other
    (bs : List (Int × CMasternodeBlockPayees)) (h h' : Int)
    (hne : h' ≠ h) :
    assocFind h' (blocksSetDefault bs h) = assocFind h' bs := by
  unfold blocksSetDefault
  cases hlk : (assocFind h bs).isSome with
  | true => simp
  | false =>
    simp only [Bool.false_eq_true, if_false]
    exact assocFind_append_single_other bs h h' _ hne

/-- C3: `AddWinningMasternode(w)` returns `true` exactly when the block
hash at `w.nBlockHeight - 100` exists and `w`'s hash is not already in
`mapMasternodePayeeVotes`; on success it inserts `w` into the vote table
and locates or creates the (script, tier) payee record in the tally at
`w.nBlockHeight`, incrementing its vote count by 1 and leaving every other
record and height untouched; on failure it returns `false` and leaves both
tables unchanged. -/
theorem addWinningMasternode_spec (e : Env) (st : CMasternodePayments)
    (w : CMasternodePaymentWinner) :
    ((st.AddWinningMasternode e w).1 = true ↔
      (e.blockHashAt (w.nBlockHeight - 100)).isSome = true ∧
      votesLookup st (e.hashOfWinner w) = none) ∧
    ((st.AddWinningMasternode e w).1 = false →
      (st.AddWinningMasternode e w).2 = st) ∧
    ((st.AddWinningMasternode e w).1 = true →
      (st.AddWinningMasternode e w).2.mapMasternodePayeeVotes =
        (e.hashOfWinner w, w) :: st.mapMasternodePayeeVotes ∧
      (∃ bp', blocksLookup (st.AddWinningMasternode e w).2 w.nBlockHeight
          = some bp' ∧
        findPayeeVotes bp' w.payee w.payeeLevel =
          some (((blocksLookup st w.nBlockHeight).bind
            (fun bp => findPayeeVotes bp w.payee w.payeeLevel)).getD 0
              + 1) ∧
        ∀ s' lvl', ¬(s' = w.payee ∧ lvl' = w.payeeLevel) →
          findPayeeVotes bp' s' lvl' =
            (blocksLookup st w.nBlockHeight).bind
              (fun bp => findPayeeVotes bp s' lvl')) ∧
      ∀ h', h' ≠ w.nBlockHeight →
        blocksLookup (st.AddWinningMasternode e w).2 h' =
          blocksLookup st h') := by
  by_cases hbh : (e.blockHashAt (w.nBlockHeight - 100)).isNone = true
  · have hr : st.AddWinningMasternode e w = (false, st) := by
      unfold CMasternodePayments.AddWinningMasternode
      rw [if_pos hbh]
    rw [hr]
    refine ⟨⟨fun hc => Bool.noConfusion hc, ?_⟩, fun _ => rfl,
      fun hc => Bool.noConfusion hc⟩
    rintro ⟨hsome, -⟩
    rw [Option.isNone_iff_eq_none.mp hbh] at hsome
    exact Bool.noConfusion hsome
  · by_cases hvl : (votesLookup st (e.hashOfWinner w)).isSome = true
    · have hr : st.AddWinningMasternode e w = (false, st) := by
        unfold CMasternodePayments.AddWinningMasternode
        rw [if_neg hbh, if_pos hvl]
      rw [hr]
      refine ⟨⟨fun hc => Bool.noConfusion hc, ?_⟩, fun _ => rfl,
        fun hc => Bool.noConfusion hc⟩
      rintro ⟨-, hnone⟩
      rw [hnone] at hvl
      exact Bool.noConfusion hvl
    · have hr : st.AddWinningMasternode e w =
        (true,
          { st with
            mapMasternodePayeeVotes :=
              (e.hashOfWinner w, w) :: st.mapMasternodePayeeVotes,
            mapMasternodeBlocks :=
              blocksModify (blocksSetDefault st.mapMasternodeBlocks
                w.nBlockHeight) w.nBlockHeight
                (fun bp => bp.AddPayee w.payeeLevel w.payee
                  w.payeeVin 1) }) := by
        unfold CMasternodePayments.AddWinningMasternode
        rw [if_neg hbh, if_neg hvl]
      rw [hr]
      refine ⟨⟨fun _ => ⟨?_, ?_⟩, fun _ => rfl⟩,
        fun hc => Bool.noConfusion hc, fun _ => ⟨rfl, ?_, ?_⟩⟩
      · cases hcase : e.blockHashAt (w.nBlockHeight - 100) with
        | none => rw [hcase] at hbh; exact absurd rfl hbh
        | some bh => rfl
      · exact Option.not_isSome_iff_eq_none.mp (fun hc => hvl hc)
      · refine ⟨CMasternodeBlockPayees.AddPayee
          ((assocFind w.nBlockHeight st.mapMasternodeBlocks).getD
            ⟨w.nBlockHeight, []⟩) w.payeeLevel w.payee w.payeeVin 1,
          ?_, ?_, ?_⟩
        · simp only [blocksLookup]
          rw [assocFind_blocksModify_same, assocFind_blocksSetDefault_same]
          rfl
        · simp only [findPayeeVotes, CMasternodeBlockPayees.AddPayee]
          rw [findPayeeRecord_addPayeeList_same]
          cases hfind : assocFind w.nBlockHeight st.mapMasternodeBlocks with
          | none => simp [blocksLookup, hfind, findPayeeRecord]
          | some bp => simp [blocksLookup, hfind, findPayeeVotes]
        · intro s' lvl' hdiff
          simp only [findPayeeVotes, CMasternodeBlockPayees.AddPayee]
          rw [findPayeeRecord_addPayeeList_other _ _ _ _ _ _ _ hdiff]
          cases hfind : assocFind w.nBlockHeight st.mapMasternodeBlocks with
          | none => simp [blocksLookup, hfind, findPayeeRecord]
          | some bp => simp [blocksLookup, hfind, findPayeeVotes]
      · intro h' hne
        simp only [blocksLookup]
        rw [assocFind_blocksModify_other _ _ _ _ hne,
          assocFind_blocksSetDefault_other _ _ _ hne]

/-- A concrete environment used by the witness theorems: all external
oracles are given simple total values. -/
def env0 : Env :=
  { sporkNewTiers := true
    sporkMNEnforcement := false
    sporkSuperblocks := false
    spork17Value := 1000
    stableSize := 0
    mnSize := 0
    countDrift := 0
    getMasternodePayment := fun _ _ _ _ _ _ => 5
    blockHashAt := fun _ => some 0
    hashOfWinner := fun w => w.vinMasternode.prevoutHash
    fallbackPayee := fun _ => none
    zcMint := fun _ => false
    tip := some (100, 7)
    blockIndexHeight := fun _ => none
    isTreasuryBlock := fun _ => false
    treasuryPayees := []
    getTreasuryAward := fun _ => 0
    budgetCycleBlocks := 100
    synced := true
    blockchainSynced := true
    isBudgetPaymentBlock := fun _ => false
    countEnabled := fun _ => 2
    liteMode := false
    activeProtocol := 70000
    findMNByVin := fun _ => none
    findMNByScript := fun _ => none
    rankOf := fun _ _ => 1
    sigValid := fun _ => true
    lockMainForMisbehaving := true
    fMasterNode := false
    activeVin := ⟨100, 0⟩
    keySetOk := true
    nextInQueue := fun _ _ => none
    signOk := fun _ => true }

/-- A concrete vote used by witness theorems. -/
def w0 : CMasternodePaymentWinner := ⟨⟨1, 0⟩, 200, [1, 2], 3, ⟨2, 0⟩⟩

/-- Witness for C3: on the empty store, admitting the concrete vote `w0`
succeeds and inserts exactly that vote. -/
theorem addWinningMasternode_spec_witness :
    (CMasternodePayments.empty.AddWinningMasternode env0 w0).1 = true ∧
    (CMasternodePayments.empty.AddWinningMasternode
      env0 w0).2.mapMasternodePayeeVotes = [(env0.hashOfWinner w0, w0)] :=
  ⟨by decide,
    ((addWinningMasternode_spec env0 CMasternodePayments.empty w0).2.2
      (by decide)).1⟩

/-- Bytewise (lexicographic) comparison of scripts, used only by the
spec-modelled tie-break of `GetPayee`. -/
def scriptLt : Script → Script → Bool
  | [], [] => false
  | [], _ :: _ => true
  | _ :: _, [] => false
  | a :: as, b :: bs =>
    if a < b then true else if b < a then false else scriptLt as bs

/-- Modelled from the spec: `CMasternodeBlockPayees::GetPayee(mnlevel)`
(declared only in the header): the script of the payee record with the
highest vote count for the tier, ties broken by bytewise-lowest script;
`none` when the tier has no record. -/
def CMasternodeBlockPayees.GetPayee (bp : CMasternodeBlockPayees)
    (lvl : Nat) : Option Script :=
  ((bp.vecPayments.filter (fun p => p.mnlevel == lvl)).foldl
    (fun best p =>
      match best with
      | none => some p
      | some q =>
        if p.nVotes > q.nVotes then some p
        else if p.nVotes == q.nVotes &&
            scriptLt p.scriptPubKey q.scriptPubKey then some p
        else some q)
    none).map CMasternodePayee.scriptPubKey

/-- `CMasternodePayments::GetBlockPayee`: delegate to the stored tally's
`GetPayee`, `none` (false) when the height has no tally. -/
def CMasternodePayments.GetBlockPayee (st : CMasternodePayments) (h : Int)
    (lvl : Nat) : Option Script :=
  match blocksLookup st h with
  | some bp => bp.GetPayee lvl
  | none => none

/-- The payee-resolution step of `FillBlockPayee`: the elected payee for
the height and tier, falling back to the currently ranked number-one node
of the tier; `none` when both fail (`hasPayment = false`). -/
def payeeForLevel (e : Env) (st : CMasternodePayments) (h : Int)
    (lvl : Nat) : Option Script :=
  match st.GetBlockPayee h lvl with
  | some s => some s
  | none => e.fallbackPayee lvl

/-- Add `d` to the value of the output at index `i` (the `vout[i].nValue
-= ...` updates of `FillBlockPayee`). -/
def modifyValueAt : List CTxOut → Nat → Int → List CTxOut
  | [], _, _ => []
  | o :: rest, 0, d => { o with nValue := o.nValue + d } :: rest
  | o :: rest, i + 1, d => o :: modifyValueAt rest i d

/-- The split-stake subtraction loop of `FillBlockPayee`:
`for (j = start; j < start + k; j++) vout[j].nValue -= split`. -/
def subSplitLoop : List CTxOut → Nat → Nat → Int → List CTxOut
  | v, _, 0, _ => v
  | v, j, k + 1, split => subSplitLoop (modifyValueAt v j (-split)) (j + 1) k split

/-- `vout.resize(n)`: truncate or extend with default-constructed outputs. -/
def resizeVout (v : List CTxOut) (n : Nat) : List CTxOut :=
  v.take n ++ List.replicate (n - v.length) CTxOut.null

/-- The mutable loop state of `CMasternodePayments::FillBlockPayee`: the
transaction outputs being built, and the function-level variables `level`
(starts at 1, incremented per paid tier) and `outputs` (starts at 1, set
to the stake output count at the first paid tier of the PoS path). -/
structure FillState where
  vout : List CTxOut
  level : Nat
  outputs : Nat
deriving DecidableEq, Repr

/-- One iteration of the tier loop of `CMasternodePayments::FillBlockPayee`
for tier `mnlevel`. -/
def fillBlockPayeeStep (e : Env) (st : CMasternodePayments)
    (prevHeight : Int) (pos zcStake : Bool) (bv : Int) (fs : FillState)
    (mnlevel : Nat) : FillState :=
  match payeeForLevel e st (prevHeight + 1) mnlevel with
  | none => fs
  | some payee =>
    let masternodePayment :=
      e.getMasternodePayment (prevHeight + 1) bv pos mnlevel 0 zcStake
    if pos then
      let i := fs.vout.length
      let outputs := if fs.level = 1 then i - 1 else fs.outputs
      let v1 := fs.vout ++ [⟨payee, masternodePayment⟩]
      let v2 :=
        if e.zcMint (v1.getD 1 CTxOut.null).scriptPubKey then v1
        else if outputs = 1 then modifyValueAt v1 1 (-masternodePayment)
        else if outputs > 1 then
          let mnPaymentSplit := Int.tdiv masternodePayment outputs
          let mnPaymentRemainder :=
            masternodePayment - mnPaymentSplit * outputs
          modifyValueAt (subSplitLoop v1 1 outputs mnPaymentSplit)
            outputs (-mnPaymentRemainder)
        else v1
      { vout := v2, level := fs.level + 1, outputs := outputs }
    else
      let v1 := resizeVout fs.vout (1 + fs.level)
      let v2 := v1.set fs.level ⟨payee, masternodePayment⟩
      let v3 :=
        if fs.level = 1 then
          match v2 with
          | [] => []
          | o :: rest => { o with nValue := bv - masternodePayment } :: rest
        else modifyValueAt v2 0 (-masternodePayment)
      { vout := v3, level := fs.level + 1, outputs := fs.outputs }

/-- The tier range of the loop: all tiers ascending when the NEW_TIERS
spork is on, only the top tier otherwise. -/
def fillLevels (e : Env) : List Nat :=
  if e.sporkNewTiers then List.range' levelMin (levelMax - levelMin + 1)
  else [levelMax]

/-- `CMasternodePayments::FillBlockPayee`: run the tier loop over the
transaction under construction.  The fee argument is carried as in the
source, where it is unused by this member function. -/
def CMasternodePayments.FillBlockPayee (e : Env) (st : CMasternodePayments)
    (tx : Transaction) (fees : Int) (pos zcStake : Bool) (bv : Int) :
    Transaction :=
  match e.tip with
  | none => tx
  | some (prevHeight, _) =>
    let final := (fillLevels e).foldl
      (fillBlockPayeeStep e st prevHeight pos zcStake bv) ⟨tx.vout, 1, 1⟩
    { tx with vout := final.vout }

theorem sumValues_append (v w : List CTxOut) :
    sumValues (v ++ w) = sumValues v + sumValues w := by
  simp [sumValues]

theorem length_modifyValueAt (v : List CTxOut) (i : Nat) (d : Int) :
    (modifyValueAt v i d).length = v.length := by
  induction v generalizing i with
  | nil => rfl
  | cons o rest ih =>
    cases i with
    | zero => rfl
    | succ j => simp [modifyValueAt, ih]

theorem sumValues_modifyValueAt (v : List CTxOut) (i : Nat) (d : Int)
    (hi : i < v.length) :
    sumValues (modifyValueAt v i d) = sumValues v + d := by
  induction v generalizing i with
  | nil => cases hi
  | cons o rest ih =>
    cases i with
    | zero =>
      simp [modifyValueAt, sumValues]
      ring
    | succ j =>
      have hj : j < rest.length := Nat.lt_of_succ_lt_succ hi
      simp only [modifyValueAt, sumValues, List.map_cons, List.sum_cons]
      have := ih j hj
      simp only [sumValues] at this
      rw [this]
      ring

theorem getD_script_modifyValueAt (v : List CTxOut) (i j : Nat) (d : Int) :
    ((modifyValueAt v i d).getD j CTxOut.null).scriptPubKey =
      (v.getD j CTxOut.null).scriptPubKey := by
  induction v generalizing i j with
  | nil => rfl
  | cons o rest ih =>
    cases i with
    | zero =>
      cases j with
      | zero => rfl
      | succ j' => rfl
    | succ i' =>
      cases j with
      | zero => rfl
      | succ j' =>
        simp only [modifyValueAt, List.getD_cons_succ]
        exact ih i' j'

theorem length_subSplitLoop (v : List CTxOut) (j k : Nat) (split : Int) :
    (subSplitLoop v j k split).length = v.length := by
  induction k generalizing v j with
  | zero => rfl
  | succ k' ih =>
    simp only [subSplitLoop]
    rw [ih, length_modifyValueAt]

theorem sumValues_subSplitLoop (v : List CTxOut) (j k : Nat) (split : Int)
    (hjk : j + k ≤ v.length) :
    sumValues (subSplitLoop v j k split) = sumValues v - k * split := by
  induction k generalizing v j with
  | zero => simp [subSplitLoop]
  | succ k' ih =>
    have hj : j < v.length := by omega
    simp only [subSplitLoop]
    rw [ih (modifyValueAt v j (-split)) (j + 1)
      (by rw [length_modifyValueAt]; omega)]
    rw [sumValues_modifyValueAt v j (-split) hj]
    push_cast
    ring

theorem getD_script_subSplitLoop (v : List CTxOut) (j k m : Nat)
    (split : Int) :
    ((subSplitLoop v j k split).getD m CTxOut.null).scriptPubKey =
      (v.getD m CTxOut.null).scriptPubKey := by
  induction k generalizing v j with
  | zero => rfl
  | succ k' ih =>
    simp only [subSplitLoop]
    rw [ih, getD_script_modifyValueAt]

theorem resizeVout_succ_self (v : List CTxOut) :
    resizeVout v (1 + v.length) = v ++ [CTxOut.null] := by
  unfold resizeVout
  rw [List.take_of_length_le (by omega)]
  congr 1
  rw [show 1 + v.length - v.length = 1 from by omega]
  rfl

theorem set_append_last (v : List CTxOut) (a b : CTxOut) :
    (v ++ [a]).set v.length b = v ++ [b] := by
  induction v with
  | nil => rfl
  | cons x xs ih =>
    simp only [List.cons_append, List.length_cons, List.set]
    rw [show xs.append [a] = xs ++ [a] from rfl, ih]

theorem fillFold_skip (e : Env) (st : CMasternodePayments) (ph : Int)
    (pos zc : Bool) (bv : Int) (levels : List Nat) (fs : FillState)
    (hnone : ∀ l ∈ levels, payeeForLevel e st (ph + 1) l = none) :
    levels.foldl (fillBlockPayeeStep e st ph pos zc bv) fs = fs := by
  induction levels generalizing fs with
  | nil => rfl
  | cons l ls ih =>
    rw [List.foldl_cons]
    have hstep : fillBlockPayeeStep e st ph pos zc bv fs l = fs := by
      unfold fillBlockPayeeStep
      rw [hnone l (List.mem_cons_self l ls)]
    rw [hstep]
    exact ih fs (fun l' hl' => hnone l' (List.mem_cons_of_mem l hl'))

/-- The paid-state invariant of the Proof-of-Work path of
`FillBlockPayee`: once at least one tier has been paid, the outputs sum to
exactly the block value and the output count tracks `level`. -/
def PowPaid (bv : Int) (fs : FillState) : Prop :=
  2 ≤ fs.level ∧ sumValues fs.vout = bv ∧ fs.vout.length = fs.level

theorem fill_pow_step (e : Env) (st : CMasternodePayments) (ph : Int)
    (zc : Bool) (bv : Int) (l : Nat) (fs : FillState)
    (hinv : (fs.level = 1 ∧ ∃ o0, fs.vout = [o0]) ∨ PowPaid bv fs) :
    (payeeForLevel e st (ph + 1) l = none ∧
      fillBlockPayeeStep e st ph false zc bv fs l = fs) ∨
    PowPaid bv (fillBlockPayeeStep e st ph false zc bv fs l) := by
  obtain ⟨v, lvl, outs⟩ := fs
  cases hp : payeeForLevel e st (ph + 1) l with
  | none =>
    left
    refine ⟨rfl, ?_⟩
    unfold fillBlockPayeeStep
    rw [hp]
  | some payee =>
    right
    rcases hinv with ⟨hl1, o0, hv⟩ | ⟨hl2, hsum, hlen⟩
    · simp only at hl1 hv
      subst hl1
      subst hv
      have hstep : fillBlockPayeeStep e st ph false zc bv ⟨[o0], 1, outs⟩ l
          = ⟨[{ o0 with nValue :=
                bv - e.getMasternodePayment (ph + 1) bv false l 0 zc },
              ⟨payee, e.getMasternodePayment (ph + 1) bv false l 0 zc⟩],
             2, outs⟩ := by
        unfold fillBlockPayeeStep
        rw [hp]
        rfl
      rw [hstep]
      refine ⟨le_refl 2, ?_, rfl⟩
      simp [sumValues]
    · simp only at hl2 hsum hlen
      subst hlen
      have hne1 : ¬(v.length = 1) := by omega
      have hstep : fillBlockPayeeStep e st ph false zc bv
          ⟨v, v.length, outs⟩ l
          = ⟨modifyValueAt (v ++ [⟨payee,
              e.getMasternodePayment (ph + 1) bv false l 0 zc⟩]) 0
              (-(e.getMasternodePayment (ph + 1) bv false l 0 zc)),
             v.length + 1, outs⟩ := by
        unfold fillBlockPayeeStep
        rw [hp]
        simp only [Bool.false_eq_true, if_false, if_neg hne1,
          resizeVout_succ_self, set_append_last]
      rw [hstep]
      refine ⟨by simp; omega, ?_, ?_⟩
      · rw [sumValues_modifyValueAt _ 0 _ (by simp)]
        rw [sumValues_append]
        simp only [sumValues, List.map_cons, List.map_nil, List.sum_cons,
          List.sum_nil]
        simp only [sumValues] at hsum
        rw [hsum]
        ring
      · simp [length_modifyValueAt]

theorem fill_pow_fold (e : Env) (st : CMasternodePayments) (ph : Int)
    (zc : Bool) (bv : Int) (levels : List Nat) (fs : FillState)
    (hinv : (fs.level = 1 ∧ ∃ o0, fs.vout = [o0]) ∨ PowPaid bv fs) :
    ((((levels.foldl (fillBlockPayeeStep e st ph false zc bv) fs).level = 1
        ∧ ∃ o0, (levels.foldl (fillBlockPayeeStep e st ph false zc bv)
          fs).vout = [o0]) ∨
      PowPaid bv (levels.foldl (fillBlockPayeeStep e st ph false zc bv)
        fs))) ∧
    (((∃ l ∈ levels, payeeForLevel e st (ph + 1) l ≠ none) ∨ PowPaid bv fs)
      → PowPaid bv (levels.foldl (fillBlockPayeeStep e st ph false zc bv)
          fs)) := by
  induction levels generalizing fs with
  | nil =>
    refine ⟨hinv, ?_⟩
    rintro (⟨l, hl, -⟩ | hp)
    · cases hl
    · exact hp
  | cons l ls ih =>
    rcases fill_pow_step e st ph zc bv l fs hinv with ⟨hnone, hstep⟩ | hpaid
    · rw [List.foldl_cons, hstep]
      obtain ⟨hInv', hcond⟩ := ih fs hinv
      refine ⟨hInv', ?_⟩
      rintro (⟨l', hl', hne⟩ | hp)
      · rcases List.mem_cons.mp hl' with rfl | hl's
        · exact absurd hnone hne
        · exact hcond (Or.inl ⟨l', hl's, hne⟩)
      · exact hcond (Or.inr hp)
    · rw [List.foldl_cons]
      obtain ⟨hInv', hcond⟩ :=
        ih (fillBlockPayeeStep e st ph false zc bv fs l) (Or.inr hpaid)
      exact ⟨hInv', fun _ => hcond (Or.inr hpaid)⟩

/-- The paid-state invariant of the Proof-of-Stake path of
`FillBlockPayee`: the output total is preserved, `outputs` is fixed to the
original stake-output count, and the stake output at index 1 keeps its
script. -/
def PosPaid (initV : List CTxOut) (fs : FillState) : Prop :=
  2 ≤ fs.level ∧ sumValues fs.vout = sumValues initV ∧
  fs.outputs = initV.length - 1 ∧ fs.outputs + 1 ≤ fs.vout.length ∧
  2 ≤ fs.vout.length ∧
  (fs.vout.getD 1 CTxOut.null).scriptPubKey =
    (initV.getD 1 CTxOut.null).scriptPubKey

theorem fill_pos_step (e : Env) (st : CMasternodePayments) (ph : Int)
    (zc : Bool) (bv : Int) (l : Nat) (initV : List CTxOut) (fs : FillState)
    (hlen2 : 2 ≤ initV.length)
    (hzc : e.zcMint (initV.getD 1 CTxOut.null).scriptPubKey = false)
    (hinv : (fs.level = 1 ∧ fs.vout = initV ∧ fs.outputs = 1) ∨
      PosPaid initV fs) :
    (payeeForLevel e st (ph + 1) l = none ∧
      fillBlockPayeeStep e st ph true zc bv fs l = fs) ∨
    PosPaid initV (fillBlockPayeeStep e st ph true zc bv fs l) := by
  obtain ⟨v, lvl, outs⟩ := fs
  cases hp : payeeForLevel e st (ph + 1) l with
  | none =>
    left
    refine ⟨rfl, ?_⟩
    unfold fillBlockPayeeStep
    rw [hp]
  | some payee =>
    right
    have hvlen2 : 2 ≤ v.length := by
      rcases hinv with ⟨-, hv, -⟩ | hpd
      · simp only at hv; rw [hv]; exact hlen2
      · exact hpd.2.2.2.2.1
    have hscript1 : (v.getD 1 CTxOut.null).scriptPubKey =
        (initV.getD 1 CTxOut.null).scriptPubKey := by
      rcases hinv with ⟨-, hv, -⟩ | hpd
      · simp only at hv; rw [hv]
      · exact hpd.2.2.2.2.2
    have hsum : sumValues v = sumValues initV := by
      rcases hinv with ⟨-, hv, -⟩ | hpd
      · simp only at hv; rw [hv]
      · exact hpd.2.1
    have houts : (if lvl = 1 then v.length - 1 else outs)
        = initV.length - 1 := by
      rcases hinv with ⟨hl1, hv, -⟩ | hpd
      · simp only at hl1 hv
        rw [if_pos hl1, hv]
      · have hge2 := hpd.1
        simp only at hge2
        rw [if_neg (by omega)]
        exact hpd.2.2.1
    have houtsle : initV.length - 1 + 1 ≤ v.length := by
      rcases hinv with ⟨-, hv, -⟩ | hpd
      · simp only at hv; rw [hv]; omega
      · have h1 := hpd.2.2.1
        have h2 := hpd.2.2.2.1
        simp only at h1 h2
        omega
    set p := e.getMasternodePayment (ph + 1) bv true l 0 zc with hpdef
    have hzc1 : e.zcMint ((v ++ [(⟨payee, p⟩ : CTxOut)]).getD 1
        CTxOut.null).scriptPubKey = false := by
      rw [List.getD_append _ _ _ 1 (by omega), hscript1]
      exact hzc
    have hlvl1 : 1 ≤ lvl := by
      rcases hinv with ⟨hl1, -, -⟩ | hpd
      · simp only at hl1; omega
      · have := hpd.1; simp only at this; omega
    have hstep : fillBlockPayeeStep e st ph true zc bv ⟨v, lvl, outs⟩ l =
        ⟨if (if lvl = 1 then v.length - 1 else outs) = 1 then
            modifyValueAt (v ++ [(⟨payee, p⟩ : CTxOut)]) 1 (-p)
          else if (if lvl = 1 then v.length - 1 else outs) > 1 then
            modifyValueAt (subSplitLoop (v ++ [(⟨payee, p⟩ : CTxOut)]) 1
                (if lvl = 1 then v.length - 1 else outs)
                (Int.tdiv p
                  (((if lvl = 1 then v.length - 1 else outs) : Nat) : Int)))
              (if lvl = 1 then v.length - 1 else outs)
              (-(p - Int.tdiv p
                  (((if lvl = 1 then v.length - 1 else outs) : Nat) : Int) *
                (((if lvl = 1 then v.length - 1 else outs) : Nat) : Int)))
          else v ++ [(⟨payee, p⟩ : CTxOut)],
         lvl + 1, if lvl = 1 then v.length - 1 else outs⟩ := by
      unfold fillBlockPayeeStep
      rw [hp]
      simp only [eq_self_iff_true, if_true, ← hpdef]
      rw [hzc1]
      simp only [Bool.false_eq_true, if_false]
    rw [hstep, houts]
    unfold PosPaid
    have hlenapp : (v ++ [(⟨payee, p⟩ : CTxOut)]).length = v.length + 1 :=
      by simp
    have hsumapp : sumValues (v ++ [(⟨payee, p⟩ : CTxOut)])
        = sumValues v + p := by
      rw [sumValues_append]; simp [sumValues]
    by_cases h1 : initV.length - 1 = 1
    · rw [if_pos h1]
      refine ⟨?_, ?_, rfl, ?_, ?_, ?_⟩
      · show 2 ≤ lvl + 1
        omega
      · show sumValues (modifyValueAt (v ++ [(⟨payee, p⟩ : CTxOut)]) 1
          (-p)) = sumValues initV
        rw [sumValues_modifyValueAt _ 1 _ (by rw [hlenapp]; omega),
          hsumapp, hsum]
        ring
      · show initV.length - 1 + 1 ≤
          (modifyValueAt (v ++ [(⟨payee, p⟩ : CTxOut)]) 1 (-p)).length
        rw [length_modifyValueAt, hlenapp]
        omega
      · show 2 ≤
          (modifyValueAt (v ++ [(⟨payee, p⟩ : CTxOut)]) 1 (-p)).length
        rw [length_modifyValueAt, hlenapp]
        omega
      · show ((modifyValueAt (v ++ [(⟨payee, p⟩ : CTxOut)]) 1 (-p)).getD 1
          CTxOut.null).scriptPubKey = (initV.getD 1 CTxOut.null).scriptPubKey
        rw [getD_script_modifyValueAt,
          List.getD_append _ _ _ 1 (by omega), hscript1]
    · have hgt : initV.length - 1 > 1 := by omega
      rw [if_neg h1, if_pos hgt]
      refine ⟨?_, ?_, rfl, ?_, ?_, ?_⟩
      · show 2 ≤ lvl + 1
        omega
      · show sumValues (modifyValueAt (subSplitLoop
          (v ++ [(⟨payee, p⟩ : CTxOut)]) 1 (initV.length - 1)
          (Int.tdiv p (((initV.length - 1 : Nat)) : Int)))
          (initV.length - 1)
          (-(p - Int.tdiv p (((initV.length - 1 : Nat)) : Int) *
            (((initV.length - 1 : Nat)) : Int)))) = sumValues initV
        rw [sumValues_modifyValueAt _ (initV.length - 1) _
          (by rw [length_subSplitLoop, hlenapp]; omega)]
        rw [sumValues_subSplitLoop _ 1 (initV.length - 1) _
          (by rw [hlenapp]; omega)]
        rw [hsumapp, hsum]
        ring
      · show initV.length - 1 + 1 ≤ (modifyValueAt (subSplitLoop
          (v ++ [(⟨payee, p⟩ : CTxOut)]) 1 (initV.length - 1)
          (Int.tdiv p (((initV.length - 1 : Nat)) : Int)))
          (initV.length - 1)
          (-(p - Int.tdiv p (((initV.length - 1 : Nat)) : Int) *
            (((initV.length - 1 : Nat)) : Int)))).length
        rw [length_modifyValueAt, length_subSplitLoop, hlenapp]
        omega
      · show 2 ≤ (modifyValueAt (subSplitLoop
          (v ++ [(⟨payee, p⟩ : CTxOut)]) 1 (initV.length - 1)
          (Int.tdiv p (((initV.length - 1 : Nat)) : Int)))
          (initV.length - 1)
          (-(p - Int.tdiv p (((initV.length - 1 : Nat)) : Int) *
            (((initV.length - 1 : Nat)) : Int)))).length
        rw [length_modifyValueAt, length_subSplitLoop, hlenapp]
        omega
      · show ((modifyValueAt (subSplitLoop
          (v ++ [(⟨payee, p⟩ : CTxOut)]) 1 (initV.length - 1)
          (Int.tdiv p (((initV.length - 1 : Nat)) : Int)))
          (initV.length - 1)
          (-(p - Int.tdiv p (((initV.length - 1 : Nat)) : Int) *
            (((initV.length - 1 : Nat)) : Int)))).getD 1
          CTxOut.null).scriptPubKey = (initV.getD 1 CTxOut.null).scriptPubKey
        rw [getD_script_modifyValueAt, getD_script_subSplitLoop,
          List.getD_append _ _ _ 1 (by omega), hscript1]

theorem fill_pos_fold (e : Env) (st : CMasternodePayments) (ph : Int)
    (zc : Bool) (bv : Int) (levels : List Nat) (initV : List CTxOut)
    (fs : FillState) (hlen2 : 2 ≤ initV.length)
    (hzc : e.zcMint (initV.getD 1 CTxOut.null).scriptPubKey = false)
    (hinv : (fs.level = 1 ∧ fs.vout = initV ∧ fs.outputs = 1) ∨
      PosPaid initV fs) :
    sumValues (levels.foldl (fillBlockPayeeStep e st ph true zc bv)
      fs).vout = sumValues initV := by
  induction levels generalizing fs with
  | nil =>
    rcases hinv with ⟨-, hv, -⟩ | hpd
    · simp only [List.foldl_nil]
      rw [hv]
    · exact hpd.2.1
  | cons l ls ih =>
    rw [List.foldl_cons]
    rcases fill_pos_step e st ph zc bv l initV fs hlen2 hzc hinv with
      ⟨-, hstep⟩ | hpaid
    · rw [hstep]
      exact ih fs hinv
    · exact ih _ (Or.inr hpaid)

/-- C7 (amended): value accounting of `FillBlockPayee`.  Proof-of-Work
path, starting from a single-output coinbase: when at least one tier is
paid, the output total equals exactly the block value (the fee argument is
unused and output 0 is overwritten with `blockValue - payment`); when no
tier can be paid the transaction is unchanged.  Proof-of-Stake path: the
output total is preserved exactly (each appended payment is subtracted
from the stake outputs, with the split remainder charged to the last
stake output), provided the stake output is not a zerocoin mint. -/
theorem fillBlockPayee_value_accounting (e : Env)
    (st : CMasternodePayments) (tx : Transaction) (fees : Int)
    (zcStake : Bool) (bv : Int) (ph : Int) (th : Nat)
    (htip : e.tip = some (ph, th)) :
    (∀ o0, tx.vout = [o0] →
      ((∃ l ∈ fillLevels e, payeeForLevel e st (ph + 1) l ≠ none) →
        sumValues (CMasternodePayments.FillBlockPayee e st tx fees false
          zcStake bv).vout = bv) ∧
      ((∀ l ∈ fillLevels e, payeeForLevel e st (ph + 1) l = none) →
        CMasternodePayments.FillBlockPayee e st tx fees false zcStake bv
          = tx)) ∧
    (2 ≤ tx.vout.length →
      e.zcMint (tx.vout.getD 1 CTxOut.null).scriptPubKey = false →
      sumValues (CMasternodePayments.FillBlockPayee e st tx fees true
        zcStake bv).vout = sumValues tx.vout) := by
  unfold CMasternodePayments.FillBlockPayee
  rw [htip]
  constructor
  · intro o0 hv
    constructor
    · rintro ⟨l, hl, hne⟩
      have hfold := fill_pow_fold e st ph zcStake bv (fillLevels e)
        ⟨tx.vout, 1, 1⟩ (Or.inl ⟨rfl, o0, hv⟩)
      exact (hfold.2 (Or.inl ⟨l, hl, hne⟩)).2.1
    · intro hnone
      show ({ tx with vout := ((fillLevels e).foldl
        (fillBlockPayeeStep e st ph false zcStake bv)
        ⟨tx.vout, 1, 1⟩).vout } : Transaction) = tx
      rw [fillFold_skip e st ph false zcStake bv (fillLevels e)
        ⟨tx.vout, 1, 1⟩ hnone]
  · intro hlen hzc
    exact fill_pos_fold e st ph zcStake bv (fillLevels e) tx.vout
      ⟨tx.vout, 1, 1⟩ hlen hzc (Or.inl ⟨rfl, rfl, rfl⟩)

/-- The concrete environment of the C7 counterexample and witness: one
tier (NEW_TIERS off), a fallback payee, flat reward 5. -/
def envC7 : Env :=
  { env0 with sporkNewTiers := false,
              fallbackPayee := fun _ => some [9] }

/-- A concrete single-output coinbase whose caller put
`blockValue + fees = 10 + 1` into output 0. -/
def txC7 : Transaction := ⟨[⟨[], 11⟩], false⟩

/-- A concrete two-output coinstake (null marker plus one stake output). -/
def txC7pos : Transaction := ⟨[⟨[], 0⟩, ⟨[5], 100⟩], false⟩

/-- Counterexample for C7 as stated: for Proof-of-Work the sum of the
output values after `FillBlockPayee` is not `block_value + fees`; with
block value 10 and fees 1 the outputs sum to 10, because the fee argument
is unused and output 0 is overwritten with `blockValue - payment`. -/
theorem fillBlockPayee_pow_fees_counterexample :
    sumValues (CMasternodePayments.empty.FillBlockPayee envC7 txC7 1 false
      false 10).vout ≠ 10 + 1 ∧
    sumValues (CMasternodePayments.empty.FillBlockPayee envC7 txC7 1 false
      false 10).vout = 10 := by
  constructor
  · decide
  · decide

/-- Witness for C7 (amended): on the concrete inputs, the PoW fill yields
output total 10 = block value, and the PoS fill preserves the output
total. -/
theorem fillBlockPayee_value_accounting_witness :
    sumValues (CMasternodePayments.empty.FillBlockPayee envC7 txC7 1 false
      false 10).vout = 10 ∧
    sumValues (CMasternodePayments.empty.FillBlockPayee envC7 txC7pos 1
      true false 10).vout = sumValues txC7pos.vout :=
  ⟨((fillBlockPayee_value_accounting envC7 CMasternodePayments.empty txC7
      1 false 10 100 7 rfl).1 ⟨[], 11⟩ rfl).1
      ⟨3, by decide, by decide⟩,
   (fillBlockPayee_value_accounting envC7 CMasternodePayments.empty
      txC7pos 1 false 10 100 7 rfl).2 (by decide) (by decide)⟩

theorem resizeVout_eq_append (v : List CTxOut) (n : Nat)
    (hn : n = v.length + 1) : resizeVout v n = v ++ [CTxOut.null] := by
  rw [hn, Nat.add_comm]
  exact resizeVout_succ_self v

theorem set_append_eq (v : List CTxOut) (a b : CTxOut) (n : Nat)
    (hn : n = v.length) : (v ++ [a]).set n b = v ++ [b] := by
  rw [hn]
  exact set_append_last v a b

theorem modifyValueAt_append_left (pre post : List CTxOut) (i : Nat)
    (d : Int) (hi : i < pre.length) :
    modifyValueAt (pre ++ post) i d = modifyValueAt pre i d ++ post := by
  induction pre generalizing i with
  | nil => cases hi
  | cons o rest ih =>
    cases i with
    | zero => rfl
    | succ j =>
      have hj : j < rest.length := Nat.lt_of_succ_lt_succ hi
      simp only [List.cons_append, modifyValueAt]
      rw [show rest.append post = rest ++ post from rfl, ih j hj]

theorem subSplitLoop_append_left (pre post : List CTxOut) (j k : Nat)
    (split : Int) (hjk : j + k ≤ pre.length) :
    subSplitLoop (pre ++ post) j k split =
      subSplitLoop pre j k split ++ post := by
  induction k generalizing pre j with
  | zero => rfl
  | succ k' ih =>
    simp only [subSplitLoop]
    rw [modifyValueAt_append_left pre post j _ (by omega)]
    rw [ih (modifyValueAt pre j (-split)) (j + 1)
      (by rw [length_modifyValueAt]; omega)]

theorem fill_pow_mem_fold (e : Env) (st : CMasternodePayments) (ph : Int)
    (zc : Bool) (bv : Int) (levels : List Nat) (h0 : CTxOut)
    (post : List CTxOut) (fs : FillState) (hv : fs.vout = h0 :: post)
    (hlvl : fs.level = 1 + post.length) :
    ∃ h0' post',
      (levels.foldl (fillBlockPayeeStep e st ph false zc bv) fs).vout =
        h0' :: post' ∧
      (∀ o ∈ post, o ∈ post') ∧
      ∀ l ∈ levels, ∀ s, payeeForLevel e st (ph + 1) l = some s →
        (⟨s, e.getMasternodePayment (ph + 1) bv false l 0 zc⟩ : CTxOut)
          ∈ post' := by
  induction levels generalizing fs h0 post with
  | nil =>
    refine ⟨h0, post, hv, fun o ho => ho, ?_⟩
    intro l hl
    cases hl
  | cons l ls ih =>
    obtain ⟨v, lvl, outs⟩ := fs
    simp only at hv hlvl
    subst hv
    subst hlvl
    rw [List.foldl_cons]
    cases hp : payeeForLevel e st (ph + 1) l with
    | none =>
      have hstep : fillBlockPayeeStep e st ph false zc bv
          ⟨h0 :: post, 1 + post.length, outs⟩ l =
          ⟨h0 :: post, 1 + post.length, outs⟩ := by
        unfold fillBlockPayeeStep
        rw [hp]
      rw [hstep]
      obtain ⟨h0', post', hfin, hmem, hlev⟩ :=
        ih h0 post ⟨h0 :: post, 1 + post.length, outs⟩ rfl rfl
      refine ⟨h0', post', hfin, hmem, ?_⟩
      intro l' hl' s hs
      rcases List.mem_cons.mp hl' with rfl | hl's
      · rw [hp] at hs
        cases hs
      · exact hlev l' hl's s hs
    | some s =>
      have hstep : ∃ h0',
          fillBlockPayeeStep e st ph false zc bv
            ⟨h0 :: post, 1 + post.length, outs⟩ l =
          ⟨h0' :: (post ++
            [(⟨s, e.getMasternodePayment (ph + 1) bv false l 0 zc⟩ :
              CTxOut)]), 1 + post.length + 1, outs⟩ := by
        cases post with
        | nil =>
          refine ⟨{ h0 with nValue :=
            bv - e.getMasternodePayment (ph + 1) bv false l 0 zc }, ?_⟩
          unfold fillBlockPayeeStep
          rw [hp]
          rfl
        | cons q qs =>
          refine ⟨{ h0 with nValue := h0.nValue +
            -(e.getMasternodePayment (ph + 1) bv false l 0 zc) }, ?_⟩
          unfold fillBlockPayeeStep
          rw [hp]
          simp only [Bool.false_eq_true, if_false]
          rw [resizeVout_eq_append (h0 :: q :: qs)
            (1 + (1 + (q :: qs).length))
            (by simp only [List.length_cons]; omega)]
          rw [set_append_eq (h0 :: q :: qs) CTxOut.null
            (⟨s, e.getMasternodePayment (ph + 1) bv false l 0 zc⟩ :
              CTxOut) (1 + (q :: qs).length)
            (by simp only [List.length_cons]; omega)]
          rw [if_neg (by simp only [List.length_cons]; omega)]
          rfl
      obtain ⟨h0', hstep⟩ := hstep
      rw [hstep]
      obtain ⟨h0'', post'', hfin, hmem, hlev⟩ :=
        ih h0'
          (post ++ [(⟨s, e.getMasternodePayment (ph + 1) bv false l 0 zc⟩ :
            CTxOut)])
          ⟨h0' :: (post ++
            [(⟨s, e.getMasternodePayment (ph + 1) bv false l 0 zc⟩ :
              CTxOut)]), 1 + post.length + 1, outs⟩ rfl
          (by simp only [List.length_append, List.length_cons,
            List.length_nil]; omega)
      refine ⟨h0'', post'', hfin, ?_, ?_⟩
      · intro o ho
        exact hmem o (List.mem_append_left _ ho)
      · intro l' hl' s' hs'
        rcases List.mem_cons.mp hl' with rfl | hl's
        · rw [hp] at hs'
          cases hs'
          exact hmem _ (List.mem_append_right _ (List.mem_singleton.mpr
            rfl))
        · exact hlev l' hl's s' hs'

theorem fill_pos_step_eq (e : Env) (st : CMasternodePayments) (ph : Int)
    (zc : Bool) (bv : Int) (l : Nat) (s : Script) (v : List CTxOut)
    (lvl outs : Nat)
    (hp : payeeForLevel e st (ph + 1) l = some s)
    (hzc1 : e.zcMint ((v ++ [(⟨s, e.getMasternodePayment (ph + 1) bv true
      l 0 zc⟩ : CTxOut)]).getD 1 CTxOut.null).scriptPubKey = false) :
    fillBlockPayeeStep e st ph true zc bv ⟨v, lvl, outs⟩ l =
      ⟨if (if lvl = 1 then v.length - 1 else outs) = 1 then
          modifyValueAt (v ++ [(⟨s, e.getMasternodePayment (ph + 1) bv
            true l 0 zc⟩ : CTxOut)]) 1
            (-(e.getMasternodePayment (ph + 1) bv true l 0 zc))
        else if (if lvl = 1 then v.length - 1 else outs) > 1 then
          modifyValueAt (subSplitLoop (v ++
              [(⟨s, e.getMasternodePayment (ph + 1) bv true l 0 zc⟩ :
                CTxOut)]) 1
              (if lvl = 1 then v.length - 1 else outs)
              (Int.tdiv (e.getMasternodePayment (ph + 1) bv true l 0 zc)
                (((if lvl = 1 then v.length - 1 else outs) : Nat) : Int)))
            (if lvl = 1 then v.length - 1 else outs)
            (-(e.getMasternodePayment (ph + 1) bv true l 0 zc -
              Int.tdiv (e.getMasternodePayment (ph + 1) bv true l 0 zc)
                (((if lvl = 1 then v.length - 1 else outs) : Nat) : Int) *
              (((if lvl = 1 then v.length - 1 else outs) : Nat) : Int)))
        else v ++ [(⟨s, e.getMasternodePayment (ph + 1) bv true l 0 zc⟩ :
          CTxOut)],
       lvl + 1, if lvl = 1 then v.length - 1 else outs⟩ := by
  unfold fillBlockPayeeStep
  rw [hp]
  simp only [eq_self_iff_true, if_true]
  rw [hzc1]
  simp only [Bool.false_eq_true, if_false]

theorem fill_pos_mem_fold (e : Env) (st : CMasternodePayments) (ph : Int)
    (zc : Bool) (bv : Int) (levels : List Nat) (initV : List CTxOut)
    (hlen2 : 2 ≤ initV.length)
    (hzc : e.zcMint (initV.getD 1 CTxOut.null).scriptPubKey = false)
    (pre post : List CTxOut) (fs : FillState)
    (hv : fs.vout = pre ++ post) (hpre : pre.length = initV.length)
    (hscr : (pre.getD 1 CTxOut.null).scriptPubKey =
      (initV.getD 1 CTxOut.null).scriptPubKey)
    (hlv : (fs.level = 1 ∧ post = []) ∨
      (2 ≤ fs.level ∧ fs.outputs = initV.length - 1)) :
    ∃ pre' post',
      (levels.foldl (fillBlockPayeeStep e st ph true zc bv) fs).vout =
        pre' ++ post' ∧
      (∀ o ∈ post, o ∈ post') ∧
      ∀ l ∈ levels, ∀ s, payeeForLevel e st (ph + 1) l = some s →
        (⟨s, e.getMasternodePayment (ph + 1) bv true l 0 zc⟩ : CTxOut)
          ∈ post' := by
  induction levels generalizing fs pre post with
  | nil =>
    refine ⟨pre, post, hv, fun o ho => ho, ?_⟩
    intro l hl
    cases hl
  | cons l ls ih =>
    obtain ⟨v, lvl, outs⟩ := fs
    simp only at hv hlv
    subst hv
    rw [List.foldl_cons]
    cases hp : payeeForLevel e st (ph + 1) l with
    | none =>
      have hstep : fillBlockPayeeStep e st ph true zc bv
          ⟨pre ++ post, lvl, outs⟩ l = ⟨pre ++ post, lvl, outs⟩ := by
        unfold fillBlockPayeeStep
        rw [hp]
      rw [hstep]
      obtain ⟨pre', post', hfin, hmem, hlev⟩ :=
        ih pre post ⟨pre ++ post, lvl, outs⟩ rfl hpre hscr hlv
      refine ⟨pre', post', hfin, hmem, ?_⟩
      intro l' hl' s hs
      rcases List.mem_cons.mp hl' with rfl | hl's
      · rw [hp] at hs
        cases hs
      · exact hlev l' hl's s hs
    | some s =>
      have hzc1 : e.zcMint (((pre ++ post) ++
          [(⟨s, e.getMasternodePayment (ph + 1) bv true l 0 zc⟩ :
            CTxOut)]).getD 1 CTxOut.null).scriptPubKey = false := by
        rw [List.append_assoc,
          List.getD_append _ _ _ 1 (by omega), hscr]
        exact hzc
      have houts : (if lvl = 1 then (pre ++ post).length - 1 else outs)
          = initV.length - 1 := by
        rcases hlv with ⟨hl1, hpost⟩ | ⟨hge2, houts2⟩
        · subst hpost
          rw [if_pos hl1]
          simp [hpre]
        · rw [if_neg (by omega)]
          exact houts2
      rw [fill_pos_step_eq e st ph zc bv l s (pre ++ post) lvl outs hp
        hzc1, houts]
      set out := (⟨s, e.getMasternodePayment (ph + 1) bv true l 0 zc⟩ :
        CTxOut) with hout
      have hassoc : (pre ++ post) ++ [out] = pre ++ (post ++ [out]) :=
        List.append_assoc pre post [out]
      have hfactor : ∃ pre2,
          (if initV.length - 1 = 1 then
            modifyValueAt ((pre ++ post) ++ [out]) 1
              (-(e.getMasternodePayment (ph + 1) bv true l 0 zc))
          else if initV.length - 1 > 1 then
            modifyValueAt (subSplitLoop ((pre ++ post) ++ [out]) 1
                (initV.length - 1)
                (Int.tdiv (e.getMasternodePayment (ph + 1) bv true l 0 zc)
                  (((initV.length - 1 : Nat)) : Int)))
              (initV.length - 1)
              (-(e.getMasternodePayment (ph + 1) bv true l 0 zc -
                Int.tdiv (e.getMasternodePayment (ph + 1) bv true l 0 zc)
                  (((initV.length - 1 : Nat)) : Int) *
                (((initV.length - 1 : Nat)) : Int)))
          else (pre ++ post) ++ [out]) = pre2 ++ (post ++ [out]) ∧
          pre2.length = initV.length ∧
          (pre2.getD 1 CTxOut.null).scriptPubKey =
            (initV.getD 1 CTxOut.null).scriptPubKey := by
        by_cases h1 : initV.length - 1 = 1
        · rw [if_pos h1, hassoc,
            modifyValueAt_append_left pre (post ++ [out]) 1 _ (by omega)]
          refine ⟨modifyValueAt pre 1 _, rfl, ?_, ?_⟩
          · rw [length_modifyValueAt, hpre]
          · rw [getD_script_modifyValueAt, hscr]
        · have hgt : initV.length - 1 > 1 := by omega
          rw [if_neg h1, if_pos hgt, hassoc,
            subSplitLoop_append_left pre (post ++ [out]) 1
              (initV.length - 1) _ (by omega),
            modifyValueAt_append_left _ (post ++ [out])
              (initV.length - 1) _
              (by rw [length_subSplitLoop]; omega)]
          refine ⟨modifyValueAt (subSplitLoop pre 1 (initV.length - 1) _)
            (initV.length - 1) _, rfl, ?_, ?_⟩
          · rw [length_modifyValueAt, length_subSplitLoop, hpre]
          · rw [getD_script_modifyValueAt, getD_script_subSplitLoop, hscr]
      obtain ⟨pre2, hfac, hpre2, hscr2⟩ := hfactor
      obtain ⟨pre', post', hfin, hmem, hlev⟩ :=
        ih pre2 (post ++ [out])
          ⟨(if initV.length - 1 = 1 then
              modifyValueAt ((pre ++ post) ++ [out]) 1
                (-(e.getMasternodePayment (ph + 1) bv true l 0 zc))
            else if initV.length - 1 > 1 then
              modifyValueAt (subSplitLoop ((pre ++ post) ++ [out]) 1
                  (initV.length - 1)
                  (Int.tdiv (e.getMasternodePayment (ph + 1) bv true l 0
                    zc) (((initV.length - 1 : Nat)) : Int)))
                (initV.length - 1)
                (-(e.getMasternodePayment (ph + 1) bv true l 0 zc -
                  Int.tdiv (e.getMasternodePayment (ph + 1) bv true l 0
                    zc) (((initV.length - 1 : Nat)) : Int) *
                  (((initV.length - 1 : Nat)) : Int)))
            else (pre ++ post) ++ [out]),
           lvl + 1, initV.length - 1⟩ hfac hpre2 hscr2
          (Or.inr ⟨by simp only; omega, rfl⟩)
      refine ⟨pre', post', hfin, ?_, ?_⟩
      · intro o ho
        exact hmem o (List.mem_append_left _ ho)
      · intro l' hl' s' hs'
        rcases List.mem_cons.mp hl' with rfl | hl's
        · rw [hp] at hs'
          cases hs'
          exact hmem _ (List.mem_append_right _
            (List.mem_singleton.mpr rfl))
        · exact hlev l' hl's s' hs'

/-- C2: a transaction produced by `CMasternodePayments::FillBlockPayee`
(which pays each tier the reward-curve amount at drift 0) is accepted by
the tally check `IsTransactionValid` at the same height, although the
validator computes the required amount with the nonzero drift count —
provided the reward curve does not increase with the drift count (the
spec's stated rationale for the `>=` tolerance), and the qualified payees
of the tally (the records holding the 6 matching admitted votes) are
exactly scripts the builder pays for their tiers. -/
theorem fillBlockPayee_accepted_by_validator (e : Env)
    (st : CMasternodePayments) (tx : Transaction) (fees : Int)
    (zcStake : Bool) (bv : Int) (ph : Int) (th : Nat) (pos : Bool)
    (htip : e.tip = some (ph, th))
    (hmono : ∀ h' bv' pos' l zcv,
      e.getMasternodePayment h' bv' pos' l (nMasternodeDriftCount e) zcv ≤
        e.getMasternodePayment h' bv' pos' l 0 zcv)
    (hzceq : tx.hasZerocoinSpendInputs = zcStake)
    (hstructw : pos = false → ∃ o0, tx.vout = [o0])
    (hstructs : pos = true → 2 ≤ tx.vout.length ∧
      e.zcMint (tx.vout.getD 1 CTxOut.null).scriptPubKey = false)
    (hbh : ∀ bp, blocksLookup st (ph + 1) = some bp →
      bp.nBlockHeight = ph + 1)
    (hq : ∀ bp, blocksLookup st (ph + 1) = some bp →
      ∀ p ∈ bp.vecPayments, payeeQualified e p = true →
        p.mnlevel ∈ fillLevels e ∧
        payeeForLevel e st (ph + 1) p.mnlevel = some p.scriptPubKey) :
    CMasternodePayments.IsTransactionValid e st
      (CMasternodePayments.FillBlockPayee e st tx fees pos zcStake bv)
      (ph + 1) bv pos = true := by
  have hftxzc : (CMasternodePayments.FillBlockPayee e st tx fees pos
      zcStake bv).hasZerocoinSpendInputs = tx.hasZerocoinSpendInputs := by
    unfold CMasternodePayments.FillBlockPayee
    rw [htip]
  unfold CMasternodePayments.IsTransactionValid
  cases hlk : blocksLookup st (ph + 1) with
  | none => rfl
  | some bp =>
    apply (blockPayees_isTransactionValid_iff e bp _ bv pos).mpr
    right
    rintro t ⟨p, hpmem, hpqual, hplevel⟩
    obtain ⟨hlmem, hpayee⟩ := hq bp hlk p hpmem hpqual
    have hout : (⟨p.scriptPubKey, e.getMasternodePayment (ph + 1) bv pos
        p.mnlevel 0 zcStake⟩ : CTxOut) ∈
        (CMasternodePayments.FillBlockPayee e st tx fees pos zcStake
          bv).vout := by
      cases pos with
      | false =>
        obtain ⟨o0, hv⟩ := hstructw rfl
        unfold CMasternodePayments.FillBlockPayee
        rw [htip]
        obtain ⟨h0', post', hfin, -, hlev⟩ :=
          fill_pow_mem_fold e st ph zcStake bv (fillLevels e) o0 []
            ⟨tx.vout, 1, 1⟩ (by simp only; rw [hv]) rfl
        show _ ∈ ((fillLevels e).foldl (fillBlockPayeeStep e st ph false
          zcStake bv) ⟨tx.vout, 1, 1⟩).vout
        rw [hfin]
        exact List.mem_cons_of_mem _
          (hlev p.mnlevel hlmem p.scriptPubKey hpayee)
      | true =>
        obtain ⟨hlen2, hzcm⟩ := hstructs rfl
        unfold CMasternodePayments.FillBlockPayee
        rw [htip]
        obtain ⟨pre', post', hfin, -, hlev⟩ :=
          fill_pos_mem_fold e st ph zcStake bv (fillLevels e) tx.vout
            hlen2 hzcm tx.vout [] ⟨tx.vout, 1, 1⟩ (by simp) rfl rfl
            (Or.inl ⟨rfl, rfl⟩)
        show _ ∈ ((fillLevels e).foldl (fillBlockPayeeStep e st ph true
          zcStake bv) ⟨tx.vout, 1, 1⟩).vout
        rw [hfin]
        exact List.mem_append_right _
          (hlev p.mnlevel hlmem p.scriptPubKey hpayee)
    refine ⟨p, hpmem, hpqual, hplevel, ?_⟩
    rw [payeeHasMatchingOutput, List.any_eq_true]
    refine ⟨⟨p.scriptPubKey, e.getMasternodePayment (ph + 1) bv pos
      p.mnlevel 0 zcStake⟩, hout, ?_⟩
    rw [Bool.and_eq_true]
    constructor
    · exact beq_self_eq_true p.scriptPubKey
    · rw [decide_eq_true_iff]
      show requiredPaymentAt e bp.nBlockHeight bv pos p.mnlevel
        (CMasternodePayments.FillBlockPayee e st tx fees pos zcStake
          bv).hasZerocoinSpendInputs ≤ _
      rw [hbh bp hlk, hftxzc, hzceq]
      unfold requiredPaymentAt
      exact hmono (ph + 1) bv pos p.mnlevel zcStake

/-- The concrete environment of the C2 witness: three tiers, reward curve
decreasing in the drift count. -/
def envC2 : Env :=
  { env0 with
      getMasternodePayment := fun _ _ _ _ d _ => 10 - (d : Int) }

/-- A concrete tally whose single payee record carries the 6 matching
votes for the script the builder elects. -/
def bpC2 : CMasternodeBlockPayees := ⟨101, [⟨[1], 3, ⟨0, 0⟩, 6⟩]⟩

/-- The concrete store holding `bpC2` at height 101. -/
def stC2 : CMasternodePayments := ⟨[], [(101, bpC2)], 0⟩

/-- A concrete coinbase for the C2 witness. -/
def txC2 : Transaction := ⟨[⟨[], 11⟩], false⟩

/-- Witness for C2: on the concrete store with a 6-vote payee, the filled
coinbase is accepted by the validator. -/
theorem fillBlockPayee_accepted_by_validator_witness :
    CMasternodePayments.IsTransactionValid envC2 stC2
      (CMasternodePayments.FillBlockPayee envC2 stC2 txC2 1 false false
        10) 101 10 false = true :=
  fillBlockPayee_accepted_by_validator envC2 stC2 txC2 1 false 10 100 7
    false rfl (fun _ _ _ _ _ => le_refl _) rfl
    (fun _ => ⟨⟨[], 11⟩, rfl⟩) (fun h => Bool.noConfusion h)
    (by
      intro bp hbp
      have h0 : blocksLookup stC2 (100 + 1) = some bpC2 := rfl
      rw [h0] at hbp
      cases hbp
      decide)
    (by
      intro bp hbp
      have h0 : blocksLookup stC2 (100 + 1) = some bpC2 := rfl
      rw [h0] at hbp
      cases hbp
      decide)

/-- A block, as far as `IsBlockValueValid` reads it: previous-block hash,
timestamp, PoS flag and transactions. -/
structure CBlock where
  hashPrevBlock : Nat
  nTime : Int
  isProofOfStake : Bool
  vtx : List Transaction
deriving DecidableEq, Repr

/-- Height resolution of `IsBlockValueValid`: `tip + 1` when the block
extends the tip, the indexed parent height plus one when found, `0` when
the parent is unknown. -/
def resolvedHeight (e : Env) (tipH : Int) (tipHash : Nat) (block : CBlock) :
    Int :=
  if tipHash = block.hashPrevBlock then tipH + 1
  else
    match e.blockIndexHeight block.hashPrevBlock with
    | some h => h + 1
    | none => 0

/-- The coinbase-or-coinstake transaction of a block
(`block.IsProofOfStake() ? block.vtx[1] : block.vtx[0]`). -/
def coinTx (block : CBlock) : Transaction :=
  if block.isProofOfStake then block.vtx.getD 1 Transaction.null
  else block.vtx.getD 0 Transaction.null

/-- The treasury scan of `IsBlockValueValid`: `found != treasuryPayees.
size()`, where `found` counts the payees having an output with exactly
their script and exactly `treasuryPayment * percent / 100`. -/
def treasuryViolated (e : Env) (nHeight : Int) (txNew : Transaction) :
    Bool :=
  decide ((e.treasuryPayees.filter (fun payee =>
    txNew.vout.any (fun out =>
      out.scriptPubKey == payee.1 &&
      out.nValue == Int.tdiv (e.getTreasuryAward nHeight * payee.2)
        100))).length ≠ e.treasuryPayees.length)

/-- The post-treasury value rules of `IsBlockValueValid` (sync state,
superblock spork, budget-payment heights, `minted <= expected`). -/
def blockValueRest (e : Env) (nHeight : Int)
    (nExpectedValue nMinted : Int) : Bool :=
  if !e.synced then
    if Int.tmod nHeight e.budgetCycleBlocks < 100 then true
    else if nMinted > nExpectedValue then false
    else true
  else if !e.sporkSuperblocks then decide (nMinted ≤ nExpectedValue)
  else if e.isBudgetPaymentBlock nHeight then true
  else if nMinted > nExpectedValue then false
  else true

/-- `IsBlockValueValid`: accept with no tip; resolve the height (0 when
the parent is unknown, with a logged warning); reject a treasury height
with a missing exact treasury output only when the enforcement spork value
is before the block time; then apply the remaining value rules. -/
def IsBlockValueValid (e : Env) (block : CBlock)
    (nExpectedValue nMinted : Int) : Bool :=
  match e.tip with
  | none => true
  | some (tipH, tipHash) =>
    let nHeight := resolvedHeight e tipH tipHash block
    if (if e.isTreasuryBlock nHeight then
          (if treasuryViolated e nHeight (coinTx block) then
            decide (block.nTime > e.spork17Value)
          else false)
        else false) then false
    else blockValueRest e nHeight nExpectedValue nMinted

/-- `CMasternodePayments::CleanPaymentList`: with the tip height, remove
every vote older than `nLimit = max(int(mnodeman.size() * 1.25), 1000)`
blocks, erasing the tally at each removed vote's height.  Since
`size * 1.25` is exact in double arithmetic and the int cast truncates
toward zero, `int(size * 1.25) = 5 * size / 4` in integer division. -/
def CMasternodePayments.CleanPaymentList (e : Env)
    (st : CMasternodePayments) : CMasternodePayments :=
  match e.tip with
  | none => st
  | some (nHeight, _) =>
    let nLimit : Int := ((max (5 * e.mnSize / 4) 1000 : Nat) : Int)
    let aged := fun (kv : Nat × CMasternodePaymentWinner) =>
      decide (nHeight - kv.2.nBlockHeight > nLimit)
    { st with
      mapMasternodePayeeVotes :=
        st.mapMasternodePayeeVotes.filter (fun kv => !aged kv),
      mapMasternodeBlocks :=
        st.mapMasternodeBlocks.filter (fun kb =>
          !(st.mapMasternodePayeeVotes.any (fun kv =>
            aged kv && kv.2.nBlockHeight == kb.1))) }

/-- The handler's window lower bound:
`int(nHeight - CountEnabled(level) * 1.25)`.  The double arithmetic is
exact and the int cast truncates toward zero, so this is the truncated
quotient `(4 * tip - 5 * cnt) / 4`. -/
def nFirstBlock (tip : Int) (cnt : Nat) : Int :=
  Int.tdiv (4 * tip - 5 * (cnt : Int)) 4

/-- The handler's out-of-range check:
`winner.nBlockHeight < nFirstBlock || winner.nBlockHeight > nHeight + 20`. -/
def windowReject (tip : Int) (cnt : Nat) (h : Int) : Bool :=
  decide (h < nFirstBlock tip cnt) || decide (h > tip + 20)

/-- `CMasternodePaymentWinner::IsValid`: registry lookup, protocol floor,
rank at `height - 100` within the top 10; ranks above 20 score 20 when
synced.  Returns (valid, misbehavior score). -/
def winnerIsValid (e : Env) (w : CMasternodePaymentWinner) : Bool × Int :=
  match e.findMNByVin w.vinMasternode with
  | none => (false, 0)
  | some pmn =>
    if pmn.protocolVersion < e.activeProtocol then (false, 0)
    else
      let n := e.rankOf w.vinMasternode (w.nBlockHeight - 100)
      if n = -1 then (false, 0)
      else if n > MNPAYMENTS_SIGNATURES_TOTAL then
        (false,
          if n > MNPAYMENTS_SIGNATURES_TOTAL * 2 ∧ e.synced then 20
          else 0)
      else (true, 0)

/-- Modelled from the spec: `CMasternodePayments::CanVote` (declared only
in the header): true when the store holds no vote from this voter for
this (height, tier). -/
def CMasternodePayments.CanVote (st : CMasternodePayments) (voter : CTxIn)
    (h : Int) (lvl : Nat) : Bool :=
  !(st.mapMasternodePayeeVotes.any (fun kv =>
    kv.2.vinMasternode == voter && kv.2.nBlockHeight == h &&
    kv.2.payeeLevel == lvl))

/-- The observable outcome of one inbound "mnw" message: the new store,
the misbehavior score assessed to the peer, whether a registry refresh
(`DsegUpdate` / `AskForMN`) was requested, whether the vote was relayed,
and whether the sync coordinator was notified. -/
structure HandlerOutcome where
  st : CMasternodePayments
  misbehavingScore : Int
  askedForMN : Bool
  relayed : Bool
  syncMarked : Bool
deriving DecidableEq, Repr

/-- The voter/payee resolution step of the handler: a legacy vote (empty
`payeeVin`) is looked up by script and backfilled with the registry's
tier and collateral reference; otherwise the payee reference is looked
up directly.  `none` when the registry does not know the node. -/
def resolveWinner (e : Env) (winner0 : CMasternodePaymentWinner) :
    Option CMasternodePaymentWinner :=
  if winner0.payeeVin = CTxIn.empty then
    match e.findMNByScript winner0.payee with
    | some mn =>
      some { winner0 with payeeLevel := mn.level, payeeVin := mn.vin }
    | none => none
  else
    match e.findMNByVin winner0.payeeVin with
    | some _ => some winner0
    | none => none

/-- `CMasternodePayments::ProcessMessageMasternodePayments` for an "mnw"
message from a peer with the given protocol version. -/
def processMNW (e : Env) (peerVersion : Int) (st : CMasternodePayments)
    (winner0 : CMasternodePaymentWinner) : HandlerOutcome :=
  if !e.blockchainSynced then ⟨st, 0, false, false, false⟩
  else if e.liteMode then ⟨st, 0, false, false, false⟩
  else if peerVersion < e.activeProtocol then ⟨st, 0, false, false, false⟩
  else
    match e.tip with
    | none => ⟨st, 0, false, false, false⟩
    | some (nHeight, _) =>
      match resolveWinner e winner0 with
      | none => ⟨st, 0, true, false, false⟩
      | some winner =>
        if (votesLookup st (e.hashOfWinner winner)).isSome then
          ⟨st, 0, false, false, true⟩
        else if windowReject nHeight (e.countEnabled winner.payeeLevel)
            winner.nBlockHeight then
          ⟨st, 0, false, false, false⟩
        else if !(winnerIsValid e winner).1 then
          ⟨st, (winnerIsValid e winner).2, false, false, false⟩
        else if !(st.CanVote winner.vinMasternode winner.nBlockHeight
            winner.payeeLevel) then
          ⟨st, 0, false, false, false⟩
        else if !(e.sigValid winner) then
          ⟨st, if e.synced ∧ e.lockMainForMisbehaving then 20 else 0,
            true, false, false⟩
        else
          let r := st.AddWinningMasternode e winner
          if r.1 then ⟨r.2, 0, false, true, true⟩
          else ⟨r.2, 0, false, false, false⟩

/-- One iteration of the tier loop of `CMasternodePayments::ProcessBlock`:
elect the next node in the payment queue for the tier, build and sign a
vote nominating it, and admit it to the local store. -/
def producerStep (e : Env) (nBlockHeight : Int)
    (acc : CMasternodePayments × List CMasternodePaymentWinner)
    (mnlevel : Nat) : CMasternodePayments × List CMasternodePaymentWinner :=
  match e.nextInQueue nBlockHeight mnlevel with
  | none => acc
  | some (payeeScript, payeeVin) =>
    let w : CMasternodePaymentWinner :=
      ⟨e.activeVin, nBlockHeight, payeeScript, mnlevel, payeeVin⟩
    if !e.signOk w then acc
    else
      let r := acc.1.AddWinningMasternode e w
      if r.1 then (r.2, acc.2 ++ [w]) else (r.2, acc.2)

/-- `CMasternodePayments::ProcessBlock`: the local vote producer.  For a
new height, provided this node is a masternode ranked in the top 10 at
`height - 100` and its key loads, build, sign and admit one vote per tier
from the payment queue; relay the admitted votes and update
`nLastBlockHeight` when any were produced.  Returns the new store and the
votes relayed. -/
def CMasternodePayments.ProcessBlock (e : Env) (st : CMasternodePayments)
    (nBlockHeight : Int) :
    CMasternodePayments × List CMasternodePaymentWinner :=
  if !e.fMasterNode then (st, [])
  else if nBlockHeight ≤ st.nLastBlockHeight then (st, [])
  else if e.rankOf e.activeVin (nBlockHeight - 100) = -1 then (st, [])
  else if e.rankOf e.activeVin (nBlockHeight - 100) >
      MNPAYMENTS_SIGNATURES_TOTAL then (st, [])
  else if !e.keySetOk then (st, [])
  else
    let res :=
      if e.isBudgetPaymentBlock nBlockHeight then (st, [])
      else
        (List.range' levelMin (levelMax - levelMin + 1)).foldl
          (producerStep e nBlockHeight) (st, [])
    if res.2 = [] then (res.1, [])
    else ({ res.1 with nLastBlockHeight := nBlockHeight }, res.2)

theorem treasuryViolated_iff (e : Env) (nHeight : Int)
    (txNew : Transaction) :
    treasuryViolated e nHeight txNew = true ↔
      ∃ pc ∈ e.treasuryPayees, ∀ out ∈ txNew.vout,
        ¬(out.scriptPubKey = pc.1 ∧ out.nValue =
          Int.tdiv (e.getTreasuryAward nHeight * pc.2) 100) := by
  unfold treasuryViolated
  rw [decide_eq_true_iff]
  constructor
  · intro hne
    by_contra hnex
    push_neg at hnex
    apply hne
    apply congrArg List.length
    apply List.filter_eq_self.mpr
    intro pc hpc
    obtain ⟨out, hout, h1, h2⟩ := hnex pc hpc
    rw [List.any_eq_true]
    refine ⟨out, hout, ?_⟩
    rw [Bool.and_eq_true, beq_iff_eq, beq_iff_eq]
    exact ⟨h1, h2⟩
  · rintro ⟨pc, hpc, hunmatched⟩ hlen
    have heq := List.Sublist.eq_of_length (List.filter_sublist _) hlen
    have hp := (List.filter_eq_self.mp heq) pc hpc
    rw [List.any_eq_true] at hp
    obtain ⟨out, hout, hmatch⟩ := hp
    rw [Bool.and_eq_true, beq_iff_eq, beq_iff_eq] at hmatch
    exact hunmatched out hout ⟨hmatch.1, hmatch.2⟩

/-- C6: at a treasury height, `IsBlockValueValid` rejects exactly when
some configured treasury payee has no output in the
coinbase-or-coinstake with its exact script and exactly
`treasury_award * percent / 100`, and the enforcement spork value is
before the block time; when every treasury payee is exactly paid, or
enforcement is not active past the block time, only the remaining value
rules decide. -/
theorem isBlockValueValid_treasury (e : Env) (block : CBlock)
    (exp minted : Int) (tipH : Int) (tipHash : Nat)
    (htip : e.tip = some (tipH, tipHash))
    (htr : e.isTreasuryBlock (resolvedHeight e tipH tipHash block)
      = true) :
    (IsBlockValueValid e block exp minted = false ↔
      ((∃ pc ∈ e.treasuryPayees, ∀ out ∈ (coinTx block).vout,
          ¬(out.scriptPubKey = pc.1 ∧ out.nValue =
            Int.tdiv (e.getTreasuryAward
              (resolvedHeight e tipH tipHash block) * pc.2) 100)) ∧
        block.nTime > e.spork17Value) ∨
      blockValueRest e (resolvedHeight e tipH tipHash block) exp minted
        = false) ∧
    ((¬(∃ pc ∈ e.treasuryPayees, ∀ out ∈ (coinTx block).vout,
        ¬(out.scriptPubKey = pc.1 ∧ out.nValue =
          Int.tdiv (e.getTreasuryAward
            (resolvedHeight e tipH tipHash block) * pc.2) 100)) ∨
      ¬(block.nTime > e.spork17Value)) →
      IsBlockValueValid e block exp minted =
        blockValueRest e (resolvedHeight e tipH tipHash block) exp
          minted) := by
  have hmain : IsBlockValueValid e block exp minted =
      (if treasuryViolated e (resolvedHeight e tipH tipHash block)
          (coinTx block) && decide (block.nTime > e.spork17Value) then
        false
      else blockValueRest e (resolvedHeight e tipH tipHash block) exp
        minted) := by
    unfold IsBlockValueValid
    rw [htip]
    simp only [htr, if_true]
    cases hv : treasuryViolated e (resolvedHeight e tipH tipHash block)
        (coinTx block) with
    | true =>
      simp only [Bool.true_and]
      cases hd : decide (block.nTime > e.spork17Value) with
      | true => simp
      | false => simp
    | false => simp
  constructor
  · rw [hmain]
    cases hv : treasuryViolated e (resolvedHeight e tipH tipHash block)
        (coinTx block) with
    | true =>
      have hex := (treasuryViolated_iff e _ _).mp hv
      cases hd : decide (block.nTime > e.spork17Value) with
      | true =>
        simp only [Bool.true_and, hd, if_true]
        constructor
        · intro _
          exact Or.inl ⟨hex, of_decide_eq_true hd⟩
        · intro _
          trivial
      | false =>
        simp only [Bool.true_and, hd, Bool.false_eq_true, if_false]
        constructor
        · intro hrest
          exact Or.inr hrest
        · rintro (⟨-, htime⟩ | hrest)
          · rw [decide_eq_true htime] at hd
            cases hd
          · exact hrest
    | false =>
      simp only [Bool.false_and, Bool.false_eq_true, if_false]
      constructor
      · intro hrest
        exact Or.inr hrest
      · rintro (⟨hex, -⟩ | hrest)
        · rw [(treasuryViolated_iff e _ _).mpr hex] at hv
          cases hv
        · exact hrest
  · intro hcond
    rw [hmain]
    rcases hcond with hnex | hntime
    · have hv : treasuryViolated e (resolvedHeight e tipH tipHash block)
          (coinTx block) = false := by
        cases hv' : treasuryViolated e (resolvedHeight e tipH tipHash
            block) (coinTx block) with
        | false => rfl
        | true => exact absurd ((treasuryViolated_iff e _ _).mp hv') hnex
      rw [hv]
      simp
    · rw [decide_eq_false hntime]
      simp

/-- Witness for C6: a concrete treasury-height block paying the single
configured treasury payee exactly is not rejected by the treasury stage;
its validity equals the remaining value rules. -/
def envC6 : Env :=
  { env0 with
      isTreasuryBlock := fun h => h == 101
      treasuryPayees := [([8], 50)]
      getTreasuryAward := fun _ => 100 }

/-- A concrete block at the treasury height paying the treasury payee
exactly 100 * 50 / 100 = 50. -/
def blkC6 : CBlock := ⟨7, 0, false, [⟨[⟨[8], 50⟩], false⟩]⟩

theorem isBlockValueValid_treasury_witness :
    IsBlockValueValid envC6 blkC6 5 5 =
      blockValueRest envC6 101 5 5 ∧
    IsBlockValueValid envC6 blkC6 5 5 = true :=
  ⟨(isBlockValueValid_treasury envC6 blkC6 5 5 100 7 rfl (by decide)).2
    (Or.inl (by decide)),
   by decide⟩

/-- C8 (amended): when the parent of the candidate block cannot be
resolved, `IsBlockValueValid` logs a warning but continues with height 0
instead of accepting unconditionally: it accepts when not synced (height
0 falls in the first 100 slots of a budget cycle), but when synced with
superblocks disabled it still applies the `minted <= expected` rule and
can reject. -/
theorem isBlockValueValid_unknown_parent (e : Env) (block : CBlock)
    (exp minted : Int) (tipH : Int) (tipHash : Nat)
    (htip : e.tip = some (tipH, tipHash))
    (hne : tipHash ≠ block.hashPrevBlock)
    (hidx : e.blockIndexHeight block.hashPrevBlock = none)
    (htr0 : e.isTreasuryBlock 0 = false) :
    (e.synced = false → IsBlockValueValid e block exp minted = true) ∧
    (e.synced = true → e.sporkSuperblocks = false →
      IsBlockValueValid e block exp minted = decide (minted ≤ exp)) := by
  have hrh : resolvedHeight e tipH tipHash block = 0 := by
    unfold resolvedHeight
    rw [if_neg hne, hidx]
  have hmain : IsBlockValueValid e block exp minted =
      blockValueRest e 0 exp minted := by
    unfold IsBlockValueValid
    rw [htip]
    simp only [hrh, htr0, Bool.false_eq_true, if_false]
  rw [hmain]
  constructor
  · intro hsy
    unfold blockValueRest
    rw [hsy]
    simp only [Bool.not_false, if_true, Int.zero_tmod]
    rw [if_pos (by norm_num)]
  · intro hsy hsb
    unfold blockValueRest
    rw [hsy, hsb]
    simp

/-- A concrete block whose parent is not in the index. -/
def blkC8 : CBlock := ⟨9, 0, false, [⟨[], false⟩]⟩

/-- Counterexample for C8 as stated: with an unknown parent (tip hash 7,
previous-block hash 9 not indexed) and the node synced, a block minting 2
against expected 1 is rejected, not accepted regardless of amounts. -/
theorem isBlockValueValid_unknown_parent_counterexample :
    (env0.tip = some (100, 7) ∧ (7 : Nat) ≠ blkC8.hashPrevBlock ∧
      env0.blockIndexHeight blkC8.hashPrevBlock = none ∧
      env0.synced = true) ∧
    IsBlockValueValid env0 blkC8 1 2 = false := by
  constructor
  · refine ⟨rfl, by decide, rfl, rfl⟩
  · decide

/-- Witness for C8 (amended): on the concrete unknown-parent block, when
not synced the block is accepted, and when synced (superblocks off) the
verdict is exactly `minted <= expected`. -/
theorem isBlockValueValid_unknown_parent_witness :
    IsBlockValueValid { env0 with synced := false } blkC8 1 2 = true ∧
    IsBlockValueValid env0 blkC8 1 2 = decide ((2 : Int) ≤ 1) :=
  ⟨(isBlockValueValid_unknown_parent { env0 with synced := false } blkC8
      1 2 100 7 rfl (by decide) rfl rfl).1 rfl,
   (isBlockValueValid_unknown_parent env0 blkC8 1 2 100 7 rfl (by decide)
      rfl rfl).2 rfl rfl⟩

theorem assocFind_filter_none
    (pred : Int × CMasternodeBlockPayees → Bool)
    (l : List (Int × CMasternodeBlockPayees)) (k : Int)
    (h : ∀ kv ∈ l, kv.1 = k → pred kv = false) :
    assocFind k (l.filter pred) = none := by
  induction l with
  | nil => rfl
  | cons kv rest ih =>
    obtain ⟨k', v⟩ := kv
    cases hpred : pred (k', v) with
    | false =>
      rw [List.filter_cons, hpred]
      simp only [Bool.false_eq_true, if_false]
      exact ih (fun kv' hkv' => h kv' (List.mem_cons_of_mem _ hkv'))
    | true =>
      rw [List.filter_cons, hpred]
      simp only [if_true]
      rw [assocFind]
      have hk : ¬(k' = k) := by
        intro hc
        rw [h (k', v) (List.mem_cons_self _ _) hc] at hpred
        cases hpred
      rw [if_neg hk]
      exact ih (fun kv' hkv' => h kv' (List.mem_cons_of_mem _ hkv'))

/-- C5 (amended): after `CleanPaymentList`, every retained vote satisfies
`tip - height <= N` with `N = max(int(1.25 * size), 1000)` (hence lies in
`[tip - N, tip + 20]` whenever every stored vote already respected the
upper bound, which admission enforces); every vote older than `N` is
removed together with the tally at its height; and the handler's window
check rejects a vote exactly when `height < int(tip - 1.25 * count)` —
the truncation of the whole expression, equivalently
`4 * height + 4 <= 4 * tip - 5 * count` — or `height > tip + 20`. -/
theorem cleanPaymentList_and_window (e : Env) (st : CMasternodePayments)
    (tipH : Int) (tipHash : Nat)
    (htip : e.tip = some (tipH, tipHash)) :
    (∀ kv ∈ (st.CleanPaymentList e).mapMasternodePayeeVotes,
      tipH - ((max (5 * e.mnSize / 4) 1000 : Nat) : Int) ≤
        kv.2.nBlockHeight ∧
      ((∀ kv' ∈ st.mapMasternodePayeeVotes,
          kv'.2.nBlockHeight ≤ tipH + 20) →
        kv.2.nBlockHeight ≤ tipH + 20)) ∧
    (∀ kv ∈ st.mapMasternodePayeeVotes,
      tipH - kv.2.nBlockHeight >
          ((max (5 * e.mnSize / 4) 1000 : Nat) : Int) →
      kv ∉ (st.CleanPaymentList e).mapMasternodePayeeVotes ∧
      blocksLookup (st.CleanPaymentList e) kv.2.nBlockHeight = none) ∧
    (∀ (cnt : Nat) (h : Int), 0 ≤ 4 * tipH - 5 * (cnt : Int) →
      (windowReject tipH cnt h = true ↔
        4 * h + 4 ≤ 4 * tipH - 5 * (cnt : Int) ∨ h > tipH + 20)) := by
  have hclean : st.CleanPaymentList e =
      { st with
        mapMasternodePayeeVotes :=
          st.mapMasternodePayeeVotes.filter (fun kv =>
            !decide (tipH - kv.2.nBlockHeight >
              ((max (5 * e.mnSize / 4) 1000 : Nat) : Int))),
        mapMasternodeBlocks :=
          st.mapMasternodeBlocks.filter (fun kb =>
            !(st.mapMasternodePayeeVotes.any (fun kv =>
              decide (tipH - kv.2.nBlockHeight >
                ((max (5 * e.mnSize / 4) 1000 : Nat) : Int)) &&
              kv.2.nBlockHeight == kb.1))) } := by
    unfold CMasternodePayments.CleanPaymentList
    rw [htip]
  refine ⟨?_, ?_, ?_⟩
  · intro kv hkv
    rw [hclean] at hkv
    simp only [List.mem_filter] at hkv
    obtain ⟨hmem, hpred⟩ := hkv
    rw [Bool.not_eq_true', decide_eq_false_iff_not] at hpred
    refine ⟨by omega, fun hub => hub kv hmem⟩
  · intro kv hkv haged
    constructor
    · rw [hclean]
      simp only [List.mem_filter]
      rintro ⟨-, hpred⟩
      rw [Bool.not_eq_true', decide_eq_false_iff_not] at hpred
      omega
    · rw [hclean]
      show assocFind kv.2.nBlockHeight _ = none
      apply assocFind_filter_none
      intro kb hkb hkey
      show (!(st.mapMasternodePayeeVotes.any _)) = false
      rw [Bool.not_eq_false']
      rw [List.any_eq_true]
      refine ⟨kv, hkv, ?_⟩
      rw [Bool.and_eq_true, beq_iff_eq]
      exact ⟨decide_eq_true haged, hkey.symm⟩
  · intro cnt h hnn
    unfold windowReject nFirstBlock
    rw [Bool.or_eq_true, decide_eq_true_iff, decide_eq_true_iff]
    have hdiv : Int.tdiv (4 * tipH - 5 * (cnt : Int)) 4 =
        (4 * tipH - 5 * (cnt : Int)) / 4 :=
      Int.tdiv_eq_ediv hnn (by norm_num)
    rw [hdiv]
    constructor
    · rintro (hlt | hgt)
      · left
        have : h + 1 ≤ (4 * tipH - 5 * (cnt : Int)) / 4 := hlt
        have := (Int.le_ediv_iff_mul_le (by norm_num)).mp this
        omega
      · exact Or.inr hgt
    · rintro (hle | hgt)
      · left
        have : (h + 1) * 4 ≤ 4 * tipH - 5 * (cnt : Int) := by omega
        have := (Int.le_ediv_iff_mul_le (by norm_num)).mpr this
        omega
      · exact Or.inr hgt

/-- The environment of the C5 counterexample: two enabled nodes in the
vote's tier, the payee known to the registry. -/
def envC5 : Env :=
  { env0 with findMNByVin := fun _ => some ⟨3, ⟨1, 0⟩, 70000⟩ }

/-- A concrete vote at height 97 with the chain tip at 100. -/
def w5 : CMasternodePaymentWinner := ⟨⟨1, 0⟩, 97, [4], 3, ⟨2, 0⟩⟩

/-- Counterexample for C5 as stated: with tip 100 and enabled count 2 the
claim's bound `tip - floor(1.25 * count) = 98` marks height 97 as
rejected, yet the handler admits and relays the vote at height 97,
because the code truncates the whole expression
`tip - count * 1.25 = 97.5` to 97 and accepts `97 < 97 = false`. -/
theorem handler_window_floor_counterexample :
    (97 : Int) < 100 - ((5 * 2 / 4 : Nat) : Int) ∧
    (processMNW envC5 70000 CMasternodePayments.empty w5).st ≠
      CMasternodePayments.empty ∧
    (processMNW envC5 70000 CMasternodePayments.empty w5).relayed =
      true := by
  refine ⟨by decide, by decide, by decide⟩

/-- The environment of the C5 witness: chain tip at height 2000. -/
def envW5 : Env := { env0 with tip := some (2000, 7) }

/-- A concrete vote at height 5, far below the horizon of tip 2000. -/
def wOld : CMasternodePaymentWinner := ⟨⟨1, 0⟩, 5, [1], 3, ⟨2, 0⟩⟩

/-- Witness for C5 (amended): with tip 2000 the overaged vote at height 5
is pruned together with its tally, and the window characterization holds
at count 2, height 97. -/
theorem cleanPaymentList_and_window_witness :
    ((5, wOld) ∉ ((⟨[(5, wOld)], [(5, ⟨5, []⟩)], 0⟩ :
        CMasternodePayments).CleanPaymentList
        envW5).mapMasternodePayeeVotes ∧
      blocksLookup ((⟨[(5, wOld)], [(5, ⟨5, []⟩)], 0⟩ :
        CMasternodePayments).CleanPaymentList envW5) wOld.nBlockHeight
        = none) ∧
    (windowReject 2000 2 97 = true ↔
      4 * 97 + 4 ≤ 4 * 2000 - 5 * ((2 : Nat) : Int) ∨
        (97 : Int) > 2000 + 20) :=
  ⟨(cleanPaymentList_and_window envW5 ⟨[(5, wOld)], [(5, ⟨5, []⟩)], 0⟩
      2000 7 rfl).2.1 (5, wOld) (by decide) (by decide),
   (cleanPaymentList_and_window envW5 ⟨[(5, wOld)], [(5, ⟨5, []⟩)], 0⟩
      2000 7 rfl).2.2 2 97 (by decide)⟩

/-- C9 (amended): misbehavior accounting of dropped "mnw" votes.  An
unknown payee/voter is dropped with a registry refresh request but *no*
misbehavior score (the score-2 call is commented out in the source); an
already-voted drop assesses *no* score (the score-1 call is commented
out); a failed signature while synced assesses score 20 (when the main
lock is acquired) and requests a node refresh. -/
theorem processMNW_misbehavior (e : Env) (ver : Int)
    (st : CMasternodePayments) (w0 : CMasternodePaymentWinner)
    (tipH : Int) (tipHash : Nat)
    (hbs : e.blockchainSynced = true) (hlite : e.liteMode = false)
    (hver : ¬(ver < e.activeProtocol))
    (htip : e.tip = some (tipH, tipHash)) :
    (resolveWinner e w0 = none →
      processMNW e ver st w0 = ⟨st, 0, true, false, false⟩) ∧
    (∀ winner, resolveWinner e w0 = some winner →
      votesLookup st (e.hashOfWinner winner) = none →
      windowReject tipH (e.countEnabled winner.payeeLevel)
        winner.nBlockHeight = false →
      (winnerIsValid e winner).1 = true →
      st.CanVote winner.vinMasternode winner.nBlockHeight
        winner.payeeLevel = false →
      processMNW e ver st w0 = ⟨st, 0, false, false, false⟩) ∧
    (∀ winner, resolveWinner e w0 = some winner →
      votesLookup st (e.hashOfWinner winner) = none →
      windowReject tipH (e.countEnabled winner.payeeLevel)
        winner.nBlockHeight = false →
      (winnerIsValid e winner).1 = true →
      st.CanVote winner.vinMasternode winner.nBlockHeight
        winner.payeeLevel = true →
      e.sigValid winner = false →
      e.synced = true → e.lockMainForMisbehaving = true →
      processMNW e ver st w0 = ⟨st, 20, true, false, false⟩) := by
  have hpre : processMNW e ver st w0 =
      (match resolveWinner e w0 with
      | none => ⟨st, 0, true, false, false⟩
      | some winner =>
        if (votesLookup st (e.hashOfWinner winner)).isSome then
          ⟨st, 0, false, false, true⟩
        else if windowReject tipH (e.countEnabled winner.payeeLevel)
            winner.nBlockHeight then
          ⟨st, 0, false, false, false⟩
        else if !(winnerIsValid e winner).1 then
          ⟨st, (winnerIsValid e winner).2, false, false, false⟩
        else if !(st.CanVote winner.vinMasternode winner.nBlockHeight
            winner.payeeLevel) then
          ⟨st, 0, false, false, false⟩
        else if !(e.sigValid winner) then
          ⟨st, if e.synced ∧ e.lockMainForMisbehaving then 20 else 0,
            true, false, false⟩
        else
          let r := st.AddWinningMasternode e winner
          if r.1 then ⟨r.2, 0, false, true, true⟩
          else ⟨r.2, 0, false, false, false⟩) := by
    unfold processMNW
    rw [hbs, hlite]
    simp only [Bool.not_true, Bool.false_eq_true, if_false]
    rw [if_neg hver, htip]
  refine ⟨?_, ?_, ?_⟩
  · intro hres
    rw [hpre, hres]
  · intro winner hres hdedup hwin hiv hcv
    rw [hpre, hres]
    simp only [hdedup, Option.isSome_none, Bool.false_eq_true, if_false,
      hwin, hiv, Bool.not_true, hcv, Bool.not_false, if_true]
  · intro winner hres hdedup hwin hiv hcv hsig hsy hlock
    rw [hpre, hres]
    simp only [hdedup, Option.isSome_none, Bool.false_eq_true, if_false,
      hwin, hiv, Bool.not_true, hcv, Bool.not_false, hsig, if_true]
    rw [if_pos ⟨hsy, hlock⟩]

/-- A concrete legacy vote (empty payee reference) whose payee script is
unknown to the registry. -/
def w9 : CMasternodePaymentWinner := ⟨⟨1, 0⟩, 101, [4], 3, ⟨0, 0⟩⟩

/-- Counterexample for C9 as stated: the unknown-payee drop assesses
misbehavior score 0, not 2 (the `Misbehaving(pfrom->GetId(), 2)` call is
commented out in the source); only the registry refresh happens. -/
theorem handler_unknown_payee_counterexample :
    (processMNW env0 70000 CMasternodePayments.empty w9).misbehavingScore
      = 0 ∧
    (processMNW env0 70000 CMasternodePayments.empty w9).askedForMN
      = true ∧
    (processMNW env0 70000 CMasternodePayments.empty w9).st
      = CMasternodePayments.empty ∧
    (0 : Int) ≠ 2 := by
  refine ⟨by decide, by decide, by decide, by decide⟩

/-- The environment of the C9 witness for the signature-failure branch. -/
def envC9 : Env := { envC5 with sigValid := fun _ => false }

/-- Witness for C9 (amended): the concrete unknown-payee drop returns
score 0 with a refresh request, and the concrete signature-failure drop
while synced returns score 20 with a refresh request. -/
theorem processMNW_misbehavior_witness :
    processMNW env0 70000 CMasternodePayments.empty w9 =
      ⟨CMasternodePayments.empty, 0, true, false, false⟩ ∧
    processMNW envC9 70000 CMasternodePayments.empty w5 =
      ⟨CMasternodePayments.empty, 20, true, false, false⟩ :=
  ⟨(processMNW_misbehavior env0 70000 CMasternodePayments.empty w9 100 7
      rfl rfl (by decide) rfl).1 rfl,
   (processMNW_misbehavior envC9 70000 CMasternodePayments.empty w5 100 7
      rfl rfl (by decide) rfl).2.2 w5 rfl rfl (by decide) (by decide) rfl
      rfl rfl rfl⟩

theorem addWinning_cases (e : Env) (st : CMasternodePayments)
    (w : CMasternodePaymentWinner) :
    st.AddWinningMasternode e w = (false, st) ∨
    ((st.AddWinningMasternode e w).1 = true ∧
     (st.AddWinningMasternode e w).2.mapMasternodePayeeVotes =
       (e.hashOfWinner w, w) :: st.mapMasternodePayeeVotes ∧
     (st.AddWinningMasternode e w).2.nLastBlockHeight =
       st.nLastBlockHeight) := by
  unfold CMasternodePayments.AddWinningMasternode
  by_cases h1 : (e.blockHashAt (w.nBlockHeight - 100)).isNone = true
  · left
    rw [if_pos h1]
  · rw [if_neg h1]
    by_cases h2 : (votesLookup st (e.hashOfWinner w)).isSome = true
    · left
      rw [if_pos h2]
    · right
      rw [if_neg h2]
      exact ⟨rfl, rfl, rfl⟩

theorem processMNW_st_cases (e : Env) (ver : Int)
    (st : CMasternodePayments) (w0 : CMasternodePaymentWinner) :
    (processMNW e ver st w0).st = st ∨
    ∃ winner, st.CanVote winner.vinMasternode winner.nBlockHeight
        winner.payeeLevel = true ∧
      e.sigValid winner = true ∧
      (st.AddWinningMasternode e winner).1 = true ∧
      (processMNW e ver st w0).st = (st.AddWinningMasternode e winner).2
      := by
  unfold processMNW
  by_cases h1 : (!e.blockchainSynced) = true
  · rw [if_pos h1]
    left
    rfl
  · rw [if_neg h1]
    by_cases h2 : e.liteMode = true
    · rw [if_pos h2]
      left
      rfl
    · rw [if_neg h2]
      by_cases h3 : ver < e.activeProtocol
      · rw [if_pos h3]
        left
        rfl
      · rw [if_neg h3]
        cases htp : e.tip with
        | none => left; rfl
        | some pr =>
          obtain ⟨nH, th⟩ := pr
          dsimp only
          cases hres : resolveWinner e w0 with
          | none => left; rfl
          | some winner =>
            dsimp only
            by_cases h4 : (votesLookup st (e.hashOfWinner winner)).isSome
                = true
            · rw [if_pos h4]
              left
              rfl
            · rw [if_neg h4]
              by_cases h5 : windowReject nH
                  (e.countEnabled winner.payeeLevel) winner.nBlockHeight
                  = true
              · rw [if_pos h5]
                left
                rfl
              · rw [if_neg h5]
                by_cases h6 : (!(winnerIsValid e winner).1) = true
                · rw [if_pos h6]
                  left
                  rfl
                · rw [if_neg h6]
                  by_cases h7 : (!(st.CanVote winner.vinMasternode
                      winner.nBlockHeight winner.payeeLevel)) = true
                  · rw [if_pos h7]
                    left
                    rfl
                  · rw [if_neg h7]
                    by_cases h8 : (!(e.sigValid winner)) = true
                    · rw [if_pos h8]
                      left
                      rfl
                    · rw [if_neg h8]
                      have hcv : st.CanVote winner.vinMasternode
                          winner.nBlockHeight winner.payeeLevel = true :=
                        by
                        cases hb : st.CanVote winner.vinMasternode
                            winner.nBlockHeight winner.payeeLevel
                        · rw [hb] at h7
                          exact absurd rfl h7
                        · rfl
                      have hsig : e.sigValid winner = true := by
                        cases hb : e.sigValid winner
                        · rw [hb] at h8
                          exact absurd rfl h8
                        · rfl
                      rcases addWinning_cases e st winner with heq |
                        ⟨hadd, -, -⟩
                      · rw [heq]
                        left
                        rfl
                      · right
                        refine ⟨winner, hcv, hsig, hadd, ?_⟩
                        rw [if_pos hadd]

theorem canVote_true_iff (st : CMasternodePayments) (voter : CTxIn)
    (h : Int) (lvl : Nat) :
    st.CanVote voter h lvl = true ↔
      ∀ kv ∈ st.mapMasternodePayeeVotes,
        ¬(kv.2.vinMasternode = voter ∧ kv.2.nBlockHeight = h ∧
          kv.2.payeeLevel = lvl) := by
  unfold CMasternodePayments.CanVote
  rw [Bool.not_eq_true', List.any_eq_false]
  simp only [Bool.and_eq_true, beq_iff_eq]
  constructor
  · intro hall kv hkv hc
    exact hall kv hkv ⟨⟨hc.1, hc.2.1⟩, hc.2.2⟩
  · intro hall kv hkv hc
    exact hall kv hkv ⟨hc.1.1, hc.1.2, hc.2⟩

/-- The single-vote invariant of the store (spec invariant I2): the vote
table holds at most one vote per (voter, height, tier). -/
def OneVotePerKey (st : CMasternodePayments) : Prop :=
  (st.mapMasternodePayeeVotes.map Prod.snd).Pairwise
    (fun a b => ¬(a.vinMasternode = b.vinMasternode ∧
      a.nBlockHeight = b.nBlockHeight ∧ a.payeeLevel = b.payeeLevel))

theorem producerStep_cases (e : Env) (h : Int)
    (acc : CMasternodePayments × List CMasternodePaymentWinner)
    (mnlevel : Nat) :
    producerStep e h acc mnlevel = acc ∨
    ∃ w : CMasternodePaymentWinner,
      w.vinMasternode = e.activeVin ∧ w.nBlockHeight = h ∧
      w.payeeLevel = mnlevel ∧
      (acc.1.AddWinningMasternode e w).1 = true ∧
      producerStep e h acc mnlevel =
        ((acc.1.AddWinningMasternode e w).2, acc.2 ++ [w]) := by
  unfold producerStep
  cases hq : e.nextInQueue h mnlevel with
  | none => left; rfl
  | some pr =>
    obtain ⟨s, pvin⟩ := pr
    dsimp only
    by_cases hs : (!e.signOk ⟨e.activeVin, h, s, mnlevel, pvin⟩) = true
    · rw [if_pos hs]
      left
      rfl
    · rw [if_neg hs]
      rcases addWinning_cases e acc.1 ⟨e.activeVin, h, s, mnlevel, pvin⟩
        with heq | ⟨hadd, -, -⟩
      · left
        rw [heq]
        rfl
      · right
        exact ⟨⟨e.activeVin, h, s, mnlevel, pvin⟩, rfl, rfl, rfl, hadd,
          by rw [if_pos hadd]⟩

theorem producer_fold_extra (e : Env) (h : Int) :
    ∀ (levels : List Nat)
      (acc : CMasternodePayments × List CMasternodePaymentWinner),
    ∃ extra, (levels.foldl (producerStep e h) acc).2 = acc.2 ++ extra ∧
      (extra = [] → (levels.foldl (producerStep e h) acc).1 = acc.1) := by
  intro levels
  induction levels with
  | nil => intro acc; exact ⟨[], by simp, fun _ => rfl⟩
  | cons l ls ih =>
    intro acc
    rw [List.foldl_cons]
    rcases producerStep_cases e h acc l with heq | ⟨w, -, -, -, -, heq⟩
    · rw [heq]
      exact ih acc
    · rw [heq]
      obtain ⟨extra1, he, -⟩ :=
        ih ((acc.1.AddWinningMasternode e w).2, acc.2 ++ [w])
      refine ⟨w :: extra1, ?_, fun hc => absurd hc (List.cons_ne_nil _ _)⟩
      rw [he]
      simp

theorem producer_fold (e : Env) (h : Int) :
    ∀ (levels : List Nat), levels.Nodup →
    ∀ (acc : CMasternodePayments × List CMasternodePaymentWinner),
    OneVotePerKey acc.1 →
    (∀ l ∈ levels, ∀ kv ∈ acc.1.mapMasternodePayeeVotes,
      ¬(kv.2.vinMasternode = e.activeVin ∧ kv.2.nBlockHeight = h ∧
        kv.2.payeeLevel = l)) →
    (∀ kv ∈ acc.1.mapMasternodePayeeVotes,
      kv.2.vinMasternode = e.activeVin →
      kv.2.nBlockHeight ≤ acc.1.nLastBlockHeight ∨
        kv.2.nBlockHeight = h) →
    OneVotePerKey (levels.foldl (producerStep e h) acc).1 ∧
    (levels.foldl (producerStep e h) acc).1.nLastBlockHeight =
      acc.1.nLastBlockHeight ∧
    (∀ kv ∈ (levels.foldl (producerStep e h) acc).1.mapMasternodePayeeVotes,
      kv.2.vinMasternode = e.activeVin →
      kv.2.nBlockHeight ≤ acc.1.nLastBlockHeight ∨
        kv.2.nBlockHeight = h) ∧
    (∀ w ∈ (levels.foldl (producerStep e h) acc).2,
      w ∈ acc.2 ∨ (w.vinMasternode = e.activeVin ∧ w.nBlockHeight = h))
    := by
  intro levels
  induction levels with
  | nil =>
    intro _ acc hone _ hself
    exact ⟨hone, rfl, hself, fun w hw => Or.inl hw⟩
  | cons l ls ih =>
    intro hnd acc hone hfresh hself
    obtain ⟨hl, hnd'⟩ := List.nodup_cons.mp hnd
    rw [List.foldl_cons]
    rcases producerStep_cases e h acc l with heq |
      ⟨w, hvin, hh, hlv, hadd, heq⟩
    · rw [heq]
      exact ih hnd' acc hone
        (fun l' hl' => hfresh l' (List.mem_cons_of_mem _ hl')) hself
    · rw [heq]
      rcases addWinning_cases e acc.1 w with hfalse | ⟨-, hv, hlast⟩
      · rw [hfalse] at hadd
        simp at hadd
      · have hone1 :
            OneVotePerKey ((acc.1.AddWinningMasternode e w).2) := by
          unfold OneVotePerKey
          rw [hv, List.map_cons, List.pairwise_cons]
          refine ⟨?_, hone⟩
          intro b hb
          rw [List.mem_map] at hb
          obtain ⟨kv, hkv, hkvb⟩ := hb
          subst hkvb
          intro hc
          exact hfresh l (List.mem_cons_self l ls) kv hkv
            ⟨hc.1.symm.trans hvin, hc.2.1.symm.trans hh,
             hc.2.2.symm.trans hlv⟩
        have hfresh1 : ∀ l' ∈ ls,
            ∀ kv ∈ (acc.1.AddWinningMasternode
              e w).2.mapMasternodePayeeVotes,
            ¬(kv.2.vinMasternode = e.activeVin ∧
              kv.2.nBlockHeight = h ∧ kv.2.payeeLevel = l') := by
          intro l' hl' kv hkv
          rw [hv] at hkv
          rcases List.mem_cons.mp hkv with hkv | hkv
          · subst hkv
            intro hc
            exact hl ((hc.2.2.symm.trans hlv) ▸ hl')
          · exact hfresh l' (List.mem_cons_of_mem _ hl') kv hkv
        have hself1 : ∀ kv ∈ (acc.1.AddWinningMasternode
              e w).2.mapMasternodePayeeVotes,
            kv.2.vinMasternode = e.activeVin →
            kv.2.nBlockHeight ≤
              (acc.1.AddWinningMasternode e w).2.nLastBlockHeight ∨
              kv.2.nBlockHeight = h := by
          intro kv hkv hs
          rw [hv] at hkv
          rcases List.mem_cons.mp hkv with hkv | hkv
          · subst hkv
            right
            exact hh
          · rw [hlast]
            exact hself kv hkv hs
        obtain ⟨A, B, C, D⟩ := ih hnd'
          ((acc.1.AddWinningMasternode e w).2, acc.2 ++ [w])
          hone1 hfresh1 hself1
        refine ⟨A, B.trans hlast, ?_, ?_⟩
        · intro kv hkv hs
          rcases C kv hkv hs with hle | he
          · left
            exact hlast ▸ hle
          · right
            exact he
        · intro w' hw'
          rcases D w' hw' with hmem | hkey
          · rcases List.mem_append.mp hmem with hmem | hmem
            · exact Or.inl hmem
            · right
              rw [List.mem_singleton] at hmem
              subst hmem
              exact ⟨hvin, hh⟩
          · exact Or.inr hkey

theorem processBlock_cases (e : Env) (st : CMasternodePayments)
    (h : Int) :
    st.ProcessBlock e h = (st, []) ∨
    (st.nLastBlockHeight < h ∧
     st.ProcessBlock e h =
       ({ ((List.range' levelMin (levelMax - levelMin + 1)).foldl
            (producerStep e h) (st, [])).1 with nLastBlockHeight := h },
        ((List.range' levelMin (levelMax - levelMin + 1)).foldl
            (producerStep e h) (st, [])).2)) := by
  unfold CMasternodePayments.ProcessBlock
  by_cases g1 : (!e.fMasterNode) = true
  · rw [if_pos g1]
    left
    rfl
  · rw [if_neg g1]
    by_cases g2 : h ≤ st.nLastBlockHeight
    · rw [if_pos g2]
      left
      rfl
    · rw [if_neg g2]
      by_cases g3 : e.rankOf e.activeVin (h - 100) = -1
      · rw [if_pos g3]
        left
        rfl
      · rw [if_neg g3]
        by_cases g4 : e.rankOf e.activeVin (h - 100) >
            MNPAYMENTS_SIGNATURES_TOTAL
        · rw [if_pos g4]
          left
          rfl
        · rw [if_neg g4]
          by_cases g5 : (!e.keySetOk) = true
          · rw [if_pos g5]
            left
            rfl
          · rw [if_neg g5]
            by_cases gb : e.isBudgetPaymentBlock h = true
            · rw [if_pos gb]
              left
              rfl
            · rw [if_neg gb]
              dsimp only
              by_cases ge : (((List.range' levelMin
                  (levelMax - levelMin + 1)).foldl
                  (producerStep e h) (st, []))).2 = []
              · rw [if_pos ge]
                left
                obtain ⟨extra, he, himp⟩ := producer_fold_extra e h
                  (List.range' levelMin (levelMax - levelMin + 1))
                  (st, [])
                have hex : extra = [] := by
                  have hx := he.symm.trans ge
                  simpa using hx
                rw [himp hex]
              · rw [if_neg ge]
                right
                exact ⟨by omega, rfl⟩

theorem processBlock_preserves (e : Env) (st : CMasternodePayments)
    (h : Int)
    (hone : OneVotePerKey st)
    (hself : ∀ kv ∈ st.mapMasternodePayeeVotes,
      kv.2.vinMasternode = e.activeVin →
      kv.2.nBlockHeight ≤ st.nLastBlockHeight) :
    OneVotePerKey (st.ProcessBlock e h).1 ∧
    st.nLastBlockHeight ≤ (st.ProcessBlock e h).1.nLastBlockHeight ∧
    (∀ kv ∈ (st.ProcessBlock e h).1.mapMasternodePayeeVotes,
      kv.2.vinMasternode = e.activeVin →
      kv.2.nBlockHeight ≤ (st.ProcessBlock e h).1.nLastBlockHeight) ∧
    (∀ w ∈ (st.ProcessBlock e h).2,
      w.vinMasternode = e.activeVin ∧
      w.nBlockHeight ≤ (st.ProcessBlock e h).1.nLastBlockHeight) := by
  rcases processBlock_cases e st h with heq | ⟨hlt, heq⟩
  · rw [heq]
    exact ⟨hone, le_refl _, hself, fun w hw =>
      absurd hw (List.not_mem_nil w)⟩
  · have hfresh0 : ∀ l ∈ List.range' levelMin (levelMax - levelMin + 1),
        ∀ kv ∈ (st, ([] : List CMasternodePaymentWinner)
          ).1.mapMasternodePayeeVotes,
        ¬(kv.2.vinMasternode = e.activeVin ∧ kv.2.nBlockHeight = h ∧
          kv.2.payeeLevel = l) := by
      intro l _ kv hkv hc
      have h1 := hself kv hkv hc.1
      have h2 := hc.2.1
      omega
    have hself0 : ∀ kv ∈ (st, ([] : List CMasternodePaymentWinner)
          ).1.mapMasternodePayeeVotes,
        kv.2.vinMasternode = e.activeVin →
        kv.2.nBlockHeight ≤ (st, ([] : List CMasternodePaymentWinner)
          ).1.nLastBlockHeight ∨ kv.2.nBlockHeight = h :=
      fun kv hkv hs => Or.inl (hself kv hkv hs)
    obtain ⟨A, B, C, D⟩ := producer_fold e h
      (List.range' levelMin (levelMax - levelMin + 1))
      (List.nodup_range' _ _) (st, []) hone hfresh0 hself0
    rw [heq]
    refine ⟨A, ?_, ?_, ?_⟩
    · show st.nLastBlockHeight ≤ h
      omega
    · intro kv hkv hs
      show kv.2.nBlockHeight ≤ h
      rcases C kv hkv hs with hle | he
      · have hle' : kv.2.nBlockHeight ≤ st.nLastBlockHeight := hle
        omega
      · omega
    · intro w hw
      rcases D w hw with habs | ⟨hv, hh'⟩
      · exact absurd habs (List.not_mem_nil w)
      · exact ⟨hv, le_of_eq hh'⟩

theorem processMNW_preserves (e : Env) (ver : Int)
    (st : CMasternodePayments) (w0 : CMasternodePaymentWinner)
    (rs : List CMasternodePaymentWinner)
    (honest : ∀ w', e.sigValid w' = true →
      w'.vinMasternode = e.activeVin → w' ∈ rs)
    (hone : OneVotePerKey st)
    (hrs : ∀ w' ∈ rs, w'.nBlockHeight ≤ st.nLastBlockHeight)
    (hself : ∀ kv ∈ st.mapMasternodePayeeVotes,
      kv.2.vinMasternode = e.activeVin →
      kv.2.nBlockHeight ≤ st.nLastBlockHeight) :
    OneVotePerKey (processMNW e ver st w0).st ∧
    (processMNW e ver st w0).st.nLastBlockHeight = st.nLastBlockHeight ∧
    (∀ kv ∈ (processMNW e ver st w0).st.mapMasternodePayeeVotes,
      kv.2.vinMasternode = e.activeVin →
      kv.2.nBlockHeight ≤ st.nLastBlockHeight) := by
  rcases processMNW_st_cases e ver st w0 with heq |
    ⟨winner, hcv, hsig, hadd, heq⟩
  · rw [heq]
    exact ⟨hone, rfl, hself⟩
  · rcases addWinning_cases e st winner with hfalse | ⟨-, hv, hlast⟩
    · rw [hfalse] at hadd
      simp at hadd
    · rw [heq]
      refine ⟨?_, hlast, ?_⟩
      · unfold OneVotePerKey
        rw [hv, List.map_cons, List.pairwise_cons]
        refine ⟨?_, hone⟩
        intro b hb
        rw [List.mem_map] at hb
        obtain ⟨kv, hkv, hkvb⟩ := hb
        subst hkvb
        intro hc
        exact (canVote_true_iff st winner.vinMasternode
            winner.nBlockHeight winner.payeeLevel).mp hcv kv hkv
          ⟨hc.1.symm, hc.2.1.symm, hc.2.2.symm⟩
      · intro kv hkv hs
        rw [hv] at hkv
        rcases List.mem_cons.mp hkv with hkv | hkv
        · subst hkv
          exact hrs winner (honest winner hsig hs)
        · exact hself kv hkv hs

/-- A state of the subsystem as seen by the reachability analysis: the
payment store together with the (ghost) list of votes this node itself
produced, signed and relayed via `ProcessBlock`. -/
structure SysState where
  mp : CMasternodePayments
  relayedSelf : List CMasternodePaymentWinner

/-- States reachable from the empty store under a fixed environment,
through the inbound "mnw" handler and the local vote producer.  The
handler step carries the signature-honesty modelling assumption: a vote
carrying this node's own `vinMasternode` passes the signature check only
if this node really produced and relayed it. -/
inductive Reachable (e : Env) : SysState → Prop where
  | init : Reachable e ⟨CMasternodePayments.empty, []⟩
  | handler (σ : SysState) (ver : Int) (w0 : CMasternodePaymentWinner)
      (hr : Reachable e σ)
      (honest : ∀ w', e.sigValid w' = true →
        w'.vinMasternode = e.activeVin → w' ∈ σ.relayedSelf) :
      Reachable e ⟨(processMNW e ver σ.mp w0).st, σ.relayedSelf⟩
  | producer (σ : SysState) (h : Int) (hr : Reachable e σ) :
      Reachable e ⟨(σ.mp.ProcessBlock e h).1,
        σ.relayedSelf ++ (σ.mp.ProcessBlock e h).2⟩

/-- The inductive invariant: one vote per key, every self-relayed vote is
at a height at most `nLastBlockHeight`, and every stored vote carrying
this node's vin is at a height at most `nLastBlockHeight`. -/
def SysInv (e : Env) (σ : SysState) : Prop :=
  OneVotePerKey σ.mp ∧
  (∀ w ∈ σ.relayedSelf, w.nBlockHeight ≤ σ.mp.nLastBlockHeight) ∧
  (∀ kv ∈ σ.mp.mapMasternodePayeeVotes,
    kv.2.vinMasternode = e.activeVin →
    kv.2.nBlockHeight ≤ σ.mp.nLastBlockHeight)

theorem sysInv_reachable (e : Env) (σ : SysState)
    (hr : Reachable e σ) : SysInv e σ := by
  induction hr with
  | init =>
    refine ⟨List.Pairwise.nil, ?_, ?_⟩
    · intro w hw
      exact absurd hw (List.not_mem_nil w)
    · intro kv hkv
      exact absurd hkv (List.not_mem_nil kv)
  | handler σ ver w0 hr honest ih =>
    obtain ⟨hone, hrs, hself⟩ := ih
    obtain ⟨h1, h2, h3⟩ :=
      processMNW_preserves e ver σ.mp w0 σ.relayedSelf honest hone hrs
        hself
    exact ⟨h1, fun w hw => h2.symm ▸ hrs w hw,
      fun kv hkv hs => h2.symm ▸ h3 kv hkv hs⟩
  | producer σ h hr ih =>
    obtain ⟨hone, hrs, hself⟩ := ih
    obtain ⟨h1, h2, h3, h4⟩ := processBlock_preserves e σ.mp h hone hself
    refine ⟨h1, ?_, h3⟩
    intro w hw
    rcases List.mem_append.mp hw with hw | hw
    · exact le_trans (hrs w hw) h2
    · exact (h4 w hw).2

/-- C4: for every voter, height and tier, at most one vote from that
voter for that (height, tier) exists in the vote table, in every state
reachable from the empty store through the inbound message handler
(which gates admission on `CanVote`) and the local vote producer
`ProcessBlock`. -/
theorem one_vote_per_voter_height_tier (e : Env) (σ : SysState)
    (hr : Reachable e σ) : OneVotePerKey σ.mp :=
  (sysInv_reachable e σ hr).1

/-- An environment under which the producer really emits votes: this
node is a masternode ranked 1, its key loads, and the payment queue
yields a payee for every tier. -/
def envP : Env :=
  { env0 with
    fMasterNode := true
    nextInQueue := fun _ lvl => some ([lvl], ⟨lvl, 0⟩) }

/-- Witness for C4: the state reached by one producer step at height 200
from the empty store satisfies the single-vote invariant. -/
theorem one_vote_per_voter_height_tier_witness :
    OneVotePerKey (CMasternodePayments.empty.ProcessBlock envP 200).1 :=
  one_vote_per_voter_height_tier envP
    ⟨(CMasternodePayments.empty.ProcessBlock envP 200).1,
      [] ++ (CMasternodePayments.empty.ProcessBlock envP 200).2⟩
    (Reachable.producer ⟨CMasternodePayments.empty, []⟩ 200
      Reachable.init)
